import Mathlib

/-
Verification of the FocusFlow task-optimization core.

Shallow embedding of src/backend/optimizer.py and
src/backend/fractional_optimize.py.  Python numbers are modelled as
rationals (ℚ); Python dicts for tasks are modelled as a structure whose
derived keys ("value", "efficiency", "is_partial", "original_duration",
"fraction") are Option fields, none meaning the key is absent.  Since the
source mutates the caller's task dicts in place (it attaches derived
keys), each solver is embedded as a state-passing function returning the
post-call contents of the caller's task list together with the result.
The exact solver returns an Option result: none models the uncaught
IndexError its DP fill raises when a task's truncated duration is
negative.
-/

/-- Python task dict.  The first four fields are the caller-supplied keys;
the Option fields model derived keys that may be absent. -/
structure PyTask where
  name : String
  duration : ℚ
  priority : ℚ
  category : String
  value : Option ℚ
  efficiency : Option ℚ
  isPart : Option Bool
  original_duration : Option ℚ
  fraction : Option ℚ
deriving DecidableEq, Repr

/-- Build an input task carrying only the four caller-supplied keys. -/
def mkTask (name : String) (duration priority : ℚ) (category : String) : PyTask :=
  ⟨name, duration, priority, category, none, none, none, none, none⟩

/-- The fixed category-weight table of both solvers; dict .get with
default 1.0 for unknown categories. -/
def category_weights (c : String) : ℚ :=
  if c = "work" then 12/10
  else if c = "health" then 11/10
  else if c = "learning" then 115/100
  else if c = "chore" then 9/10
  else if c = "relaxation" then 8/10
  else 1

/-- Python int() applied to a rational: truncation toward zero. -/
def pyInt (q : ℚ) : ℤ :=
  if 0 ≤ q then ⌊q⌋ else -⌊-q⌋

/-- Round half to even (the rounding mode of Python round). -/
def rhe (q : ℚ) : ℤ :=
  if q - ⌊q⌋ = 1/2 then (if 2 ∣ ⌊q⌋ then ⌊q⌋ else ⌊q⌋ + 1) else round q

/-- Python round(x, 2): round half to even at two decimal places.
This abstracts the binary-float rounding of the source into exact
rational rounding. -/
def round2 (q : ℚ) : ℚ :=
  (rhe (q * 100) : ℚ) / 100

/-- The rational q is (the embedding of) a non-negative Python integer. -/
def natQ (q : ℚ) : Prop :=
  q.den = 1 ∧ 0 ≤ q

instance (q : ℚ) : Decidable (natQ q) :=
  inferInstanceAs (Decidable (_ ∧ _))

/-- Shared value model: priority times category weight. -/
def taskValue (t : PyTask) : ℚ :=
  t.priority * category_weights t.category

/-- Annotation loop of the exact solver: task["value"] = priority * weight.
In the source this mutates the caller's dict. -/
def annotateV (t : PyTask) : PyTask :=
  ⟨t.name, t.duration, t.priority, t.category, some (taskValue t),
    t.efficiency, t.isPart, t.original_duration, t.fraction⟩

/-- Annotation loop of the greedy solver: sets task["value"] and
task["efficiency"] (value / duration when duration > 0, else 0). -/
def annotateVE (t : PyTask) : PyTask :=
  ⟨t.name, t.duration, t.priority, t.category, some (taskValue t),
    some (if 0 < t.duration then taskValue t / t.duration else 0),
    t.isPart, t.original_duration, t.fraction⟩

/-- Read the "value" key of an annotated task. -/
def valD (t : PyTask) : ℚ :=
  t.value.getD 0

/-- Read the "efficiency" key of an annotated task. -/
def effD (t : PyTask) : ℚ :=
  t.efficiency.getD 0

/-- First-seen-order category counts, modelling the Python dict built by
the explanation generators (insertion order preserved). -/
def bumpCount : List (String × ℕ) → String → List (String × ℕ)
  | [], c => [(c, 1)]
  | (k, n) :: rest, c =>
    if k = c then (k, n + 1) :: rest else (k, n) :: bumpCount rest c

/-- Category breakdown of a task list in first-seen order. -/
def categoryCounts (ts : List PyTask) : List (String × ℕ) :=
  ts.foldl (fun acc t => bumpCount acc t.category) []

/-- Rendering of a Python number into a string; abstracts Python float
repr (the claims never inspect these characters). -/
def pyNumStr (q : ℚ) : String :=
  toString q

/-- Rendering with one decimal place, abstracting the Python format
specifier .1f. -/
def pyFmt1 (q : ℚ) : String :=
  toString ((rhe (q * 10) : ℚ) / 10)

/-- Comma-separated category summary, as in the Python join. -/
def catSummary (ts : List PyTask) : String :=
  String.intercalate ", "
    ((categoryCounts ts).map fun p => toString p.2 ++ " " ++ p.1)

/-- generate_explanation of optimizer.py. -/
def generate_explanation (optimized_tasks skipped_tasks : List PyTask)
    (total_time available_time : ℚ) (cw : String → ℚ) : String :=
  let part1 := "Optimized your schedule to maximize productivity within " ++
    pyNumStr available_time ++ " minutes (" ++ pyFmt1 (available_time / 60) ++
    " hours). "
  let part2 :=
    if optimized_tasks = [] then "" else
      "Selected " ++ toString optimized_tasks.length ++ " task(s) totaling " ++
      pyNumStr total_time ++ " minutes (" ++ pyFmt1 (total_time / 60) ++
      " hours), leaving " ++ pyNumStr (available_time - total_time) ++
      " minutes free. " ++
      "Your optimized schedule includes: " ++ catSummary optimized_tasks ++ ". "
  let part3 :=
    if skipped_tasks = [] then "" else
      toString skipped_tasks.length ++
      " task(s) were skipped due to time constraints or lower priority-to-duration ratio. " ++
      (if skipped_tasks.any (fun t => 4 ≤ t.priority) then
        "Some high-priority tasks were skipped because they couldn\x27t fit in the remaining time. Consider extending your available time or breaking down larger tasks. "
      else "")
  let part4 := "The algorithm prioritizes tasks using category weights: Work (" ++
    pyNumStr (cw "work") ++ "x), Health (" ++ pyNumStr (cw "health") ++
    "x), Learning (" ++ pyNumStr (cw "learning") ++ "x), Chore (" ++
    pyNumStr (cw "chore") ++ "x), Relaxation (" ++ pyNumStr (cw "relaxation") ++
    "x). "
  part1 ++ part2 ++ part3 ++ part4

/-- DP table of the exact solver over (weight, value) items, where weight
is the truncated duration.  dp items i w is the table entry dp[i][w] of
the source: best value over the first i items within capacity w. -/
def dp (items : List (ℕ × ℚ)) : ℕ → ℕ → ℚ
  | 0, _ => 0
  | i + 1, w =>
    let it := items.getD i (0, 0)
    let keep := dp items i w
    if it.1 ≤ w then max keep (dp items i (w - it.1) + it.2) else keep

/-- Backtracking scan of the exact solver: walk i from n down to 1,
select item i-1 exactly when dp[i][w] differs from dp[i-1][w], paying its
weight.  Produces the selected 0-based indices in descending order (the
source appends them in that order and reverses afterwards). -/
def selectIdx (items : List (ℕ × ℚ)) : ℕ → ℕ → List ℕ
  | 0, _ => []
  | i + 1, w =>
    if dp items (i + 1) w = dp items i w then
      selectIdx items i w
    else
      i :: selectIdx items i (w - (items.getD i (0, 0)).1)

/-- Result dict of optimize_tasks. -/
structure ExactResult where
  optimized_tasks : List PyTask
  skipped_tasks : List PyTask
  total_time : ℚ
  total_value : ℚ
  explanation : String
deriving DecidableEq, Repr

/-- State-passing embedding of optimize_tasks (optimizer.py).  The first
component is the post-call contents of the caller's task list (the source
annotates the caller's dicts in place).  The result is none when the DP
fill would raise IndexError, which happens exactly when some truncated
duration is negative. -/
def optimize_tasksS (tasks : List PyTask) (available_time : ℚ) :
    List PyTask × Option ExactResult :=
  if tasks = [] ∨ available_time ≤ 0 then
    (tasks, some ⟨[], tasks, 0, 0, "No tasks to optimize or no available time."⟩)
  else
    let ats := tasks.map annotateV
    if ats.any fun t => pyInt t.duration < 0 then (ats, none)
    else
      let n := ats.length
      let W := (pyInt available_time).toNat
      let items := ats.map fun t => ((pyInt t.duration).toNat, valD t)
      let sel := (selectIdx items n W).reverse
      let optimized_tasks := sel.filterMap fun i => ats[i]?
      let skipped_tasks :=
        ((List.range n).filter fun i => ¬ i ∈ sel).filterMap fun i => ats[i]?
      let total_time := (optimized_tasks.map PyTask.duration).sum
      let total_value := (optimized_tasks.map valD).sum
      (ats, some ⟨optimized_tasks, skipped_tasks, total_time, round2 total_value,
        generate_explanation optimized_tasks skipped_tasks total_time
          available_time category_weights⟩)

/-- optimize_tasks as the caller observes its return value. -/
def optimize_tasks (tasks : List PyTask) (available_time : ℚ) :
    Option ExactResult :=
  (optimize_tasksS tasks available_time).2

/-- calculate_task_efficiency of optimizer.py (value per minute). -/
def calculate_task_efficiency (t : PyTask) (cw : String → ℚ) : ℚ :=
  let v := t.priority * cw t.category
  if 0 < t.duration then v / t.duration else 0

/-- Sorting relation of the greedy solver: descending efficiency.  Python
sorted(..., key=efficiency, reverse=True) is a stable sort; a stable sort
under a total preorder is extensionally unique, so the stable
insertionSort below computes exactly the list the source computes. -/
def effGe (a b : PyTask) : Prop :=
  effD b ≤ effD a

instance : DecidableRel effGe :=
  fun a b => inferInstanceAs (Decidable (effD b ≤ effD a))

instance : IsTotal PyTask effGe :=
  ⟨fun a b => le_total (effD b) (effD a)⟩

instance : IsTrans PyTask effGe :=
  ⟨fun _ _ _ h1 h2 => le_trans h2 h1⟩

/-- Partial copy built by the greedy solver when a task only partially
fits: duration becomes the remaining time, value is scaled by the
fraction, and the is_partial / original_duration / fraction keys are
attached.  The efficiency key is copied unchanged (dict copy). -/
def mkPartialTask (t : PyTask) (remaining : ℚ) : PyTask :=
  let f := remaining / t.duration
  ⟨t.name, remaining, t.priority, t.category, some (valD t * f),
    t.efficiency, some true, some t.duration, some f⟩

/-- Accumulated state of the greedy loop: included list, skipped list,
total_time, total_value, partial_inclusion flag, and the final value of
remaining_time. -/
structure FracAcc where
  opt : List PyTask
  skip : List PyTask
  total_time : ℚ
  total_value : ℚ
  flag : Bool
  rem : ℚ
deriving DecidableEq, Repr

/-- The greedy loop of optimize_tasks_fractional over the sorted task
list, carrying remaining_time. -/
def fracLoop : List PyTask → ℚ → FracAcc
  | [], r => ⟨[], [], 0, 0, false, r⟩
  | t :: rest, r =>
    if t.duration ≤ r then
      let a := fracLoop rest (r - t.duration)
      ⟨t :: a.opt, a.skip, t.duration + a.total_time, valD t + a.total_value,
        a.flag, a.rem⟩
    else if 0 < r then
      let p := mkPartialTask t r
      let a := fracLoop rest 0
      ⟨p :: a.opt, a.skip, r + a.total_time, valD p + a.total_value, true, a.rem⟩
    else
      let a := fracLoop rest r
      ⟨a.opt, t :: a.skip, a.total_time, a.total_value, a.flag, a.rem⟩

/-- Result dict of optimize_tasks_fractional.  The partial_inclusion key
is absent (none) on the degenerate branch of the source. -/
structure FracResult where
  optimized_tasks : List PyTask
  skipped_tasks : List PyTask
  total_time : ℚ
  total_value : ℚ
  explanation : String
  partIncl : Option Bool
deriving DecidableEq, Repr

/-- generate_explanation_fractional of fractional_optimize.py. -/
def generate_explanation_fractional (optimized_tasks skipped_tasks : List PyTask)
    (total_time available_time : ℚ) (cw : String → ℚ) (pi : Bool) : String :=
  let part1 := "Optimized your schedule using fractional knapsack algorithm within " ++
    pyNumStr available_time ++ " minutes (" ++ pyFmt1 (available_time / 60) ++
    " hours). "
  let part2 :=
    if optimized_tasks = [] then "" else
      let full_tasks := optimized_tasks.filter fun t => ¬ t.isPart.getD false
      let ptasks := optimized_tasks.filter fun t => t.isPart.getD false
      "Selected " ++ toString full_tasks.length ++ " full task(s)" ++
      (if ptasks = [] then "" else
        " and " ++ toString ptasks.length ++ " partial task(s)") ++
      " totaling " ++ pyNumStr total_time ++ " minutes (" ++
      pyFmt1 (total_time / 60) ++ " hours), leaving " ++
      pyNumStr (available_time - total_time) ++ " minutes free. " ++
      "Your optimized schedule includes: " ++ catSummary optimized_tasks ++ ". " ++
      (if pi then
        "This schedule includes partial task completion to maximize time utilization. "
      else "")
  let part3 :=
    if skipped_tasks = [] then "" else
      toString skipped_tasks.length ++
      " task(s) were skipped due to lower efficiency scores. "
  let part4 := "The fractional knapsack algorithm prioritizes tasks by efficiency (value per minute) and can include partial tasks. Category weights: Work (" ++
    pyNumStr (cw "work") ++ "x), Health (" ++ pyNumStr (cw "health") ++
    "x), Learning (" ++ pyNumStr (cw "learning") ++ "x), Chore (" ++
    pyNumStr (cw "chore") ++ "x), Relaxation (" ++ pyNumStr (cw "relaxation") ++
    "x). "
  part1 ++ part2 ++ part3 ++ part4

/-- State-passing embedding of optimize_tasks_fractional
(fractional_optimize.py).  First component: post-call contents of the
caller's task list (the source attaches value and efficiency keys in
place). -/
def optimize_tasks_fractionalS (tasks : List PyTask) (available_time : ℚ) :
    List PyTask × FracResult :=
  if tasks = [] ∨ available_time ≤ 0 then
    (tasks, ⟨[], tasks, 0, 0, "No tasks to optimize or no available time.", none⟩)
  else
    let ats := tasks.map annotateVE
    let sorted_tasks := ats.insertionSort effGe
    let a := fracLoop sorted_tasks available_time
    (ats, ⟨a.opt, a.skip, a.total_time, round2 a.total_value,
      generate_explanation_fractional a.opt a.skip a.total_time available_time
        category_weights a.flag,
      some a.flag⟩)

/-- optimize_tasks_fractional as the caller observes its return value. -/
def optimize_tasks_fractional (tasks : List PyTask) (available_time : ℚ) :
    FracResult :=
  (optimize_tasks_fractionalS tasks available_time).2

/-- Modelled from the spec (section 8, exact optimality): the maximum,
over all subsets of the task list whose summed durations are at most the
capacity, of the summed task values. -/
def specMaxValue (tasks : List PyTask) (capacity : ℚ) : ℚ :=
  ((tasks.sublists.filter fun s => decide ((s.map PyTask.duration).sum ≤ capacity)).map
    fun s => (s.map taskValue).sum).foldr max 0

/-- Weight and value of an annotated task as the exact solver reads them:
the truncated duration and the attached value. -/
def itemFn (t : PyTask) : ℕ × ℚ :=
  ((pyInt t.duration).toNat, valD t)

/-- A task record all of whose fields are zero or empty, used only as a
getD default in proofs. -/
def dfltTask : PyTask :=
  mkTask "" 0 0 ""

/-- The (weight, value) items the exact solver feeds to its DP table. -/
def exactItems (tasks : List PyTask) : List (ℕ × ℚ) :=
  (tasks.map annotateV).map itemFn

/-- The ascending selected indices recovered by the exact solver. -/
def exactSel (tasks : List PyTask) (available_time : ℚ) : List ℕ :=
  (selectIdx (exactItems tasks) (tasks.map annotateV).length
    (pyInt available_time).toNat).reverse

/-- The included-task list of the exact solver's main branch. -/
def exactOpt (tasks : List PyTask) (available_time : ℚ) : List PyTask :=
  (exactSel tasks available_time).filterMap fun i => (tasks.map annotateV)[i]?

/-- The skipped-task list of the exact solver's main branch. -/
def exactSkip (tasks : List PyTask) (available_time : ℚ) : List PyTask :=
  ((List.range (tasks.map annotateV).length).filter
    fun i => ¬ i ∈ exactSel tasks available_time).filterMap
    fun i => (tasks.map annotateV)[i]?

/-- The efficiency-sorted annotated list of the greedy solver. -/
def sortedVE (tasks : List PyTask) : List PyTask :=
  (tasks.map annotateVE).insertionSort effGe

/-! Basic numeric lemmas -/

/-- Any element is at most the max-fold of its list (base 0). -/
theorem le_foldr_max {l : List ℚ} {a : ℚ} (h : a ∈ l) : a ≤ l.foldr max 0 := by
  induction l with
  | nil => cases h
  | cons b t ih =>
    rcases List.mem_cons.1 h with h | h
    · subst h
      exact le_max_left _ _
    · exact le_trans (ih h) (le_max_right _ _)

/-- The max-fold is at most any bound that dominates 0 and every element. -/
theorem foldr_max_le {l : List ℚ} {b : ℚ} (hb : 0 ≤ b)
    (h : ∀ a ∈ l, a ≤ b) : l.foldr max 0 ≤ b := by
  induction l with
  | nil => exact hb
  | cons c t ih =>
    exact max_le (h c (List.mem_cons_self c t)) (ih fun a ha => h a (List.mem_cons_of_mem _ ha))

/-- rhe is bounded between floor and floor + 1. -/
theorem rhe_bounds (q : ℚ) : ⌊q⌋ ≤ rhe q ∧ rhe q ≤ ⌊q⌋ + 1 := by
  unfold rhe
  split
  · split
    · exact ⟨le_refl _, by omega⟩
    · exact ⟨by omega, le_refl _⟩
  · rw [round_eq]
    constructor
    · exact Int.floor_le_floor (by linarith)
    · have : ⌊q + 1 / 2⌋ ≤ ⌊q + 1⌋ := Int.floor_le_floor (by linarith)
      simpa using this

/-- rhe is monotone. -/
theorem rhe_mono {x y : ℚ} (h : x ≤ y) : rhe x ≤ rhe y := by
  rcases lt_or_eq_of_le (Int.floor_le_floor h : ⌊x⌋ ≤ ⌊y⌋) with hf | hf
  · calc rhe x ≤ ⌊x⌋ + 1 := (rhe_bounds x).2
    _ ≤ ⌊y⌋ := by omega
    _ ≤ rhe y := (rhe_bounds y).1
  · unfold rhe
    rw [← hf]
    by_cases hx : x - ⌊x⌋ = 1/2 <;> by_cases hy : y - ⌊x⌋ = 1/2
    · rw [if_pos hx, if_pos hy]
    · have hy2 : (1:ℚ)/2 < y - ⌊x⌋ := lt_of_le_of_ne (by linarith) (fun hc => hy hc.symm)
      have hr : ⌊x⌋ + 1 ≤ round y := by
        rw [round_eq]
        exact Int.le_floor.2 (by push_cast; linarith)
      rw [if_pos hx, if_neg hy]
      split <;> omega
    · have hx2 : x - ⌊x⌋ < 1/2 := lt_of_le_of_ne (by linarith) hx
      have hr : round x ≤ ⌊x⌋ := by
        rw [round_eq]
        have : ⌊x + 1/2⌋ < ⌊x⌋ + 1 := Int.floor_lt.2 (by push_cast; linarith)
        omega
      rw [if_neg hx, if_pos hy]
      split <;> omega
    · rw [if_neg hx, if_neg hy, round_eq, round_eq]
      exact Int.floor_le_floor (by linarith)

/-- round2 is monotone. -/
theorem round2_mono {x y : ℚ} (h : x ≤ y) : round2 x ≤ round2 y := by
  unfold round2
  have := rhe_mono (by linarith : x * 100 ≤ y * 100)
  have hc : ((rhe (x * 100) : ℚ)) ≤ ((rhe (y * 100) : ℚ)) := by exact_mod_cast this
  linarith

/-- natQ characterization: exactly the casts of natural numbers. -/
theorem natQ_iff {q : ℚ} : natQ q ↔ ∃ n : ℕ, q = (n : ℚ) := by
  constructor
  · rintro ⟨hden, hpos⟩
    refine ⟨q.num.toNat, ?_⟩
    have hq : (q.num : ℚ) = q := by
      conv_rhs => rw [← Rat.num_div_den q]
      rw [hden]
      simp
    have hn : 0 ≤ q.num := Rat.num_nonneg.2 hpos
    rw [← hq]
    exact_mod_cast (Int.toNat_of_nonneg hn).symm
  · rintro ⟨n, rfl⟩
    exact ⟨Rat.den_natCast n, by positivity⟩

/-- pyInt of a natural-number rational. -/
theorem pyInt_natCast (n : ℕ) : pyInt (n : ℚ) = n := by
  unfold pyInt
  rw [if_pos (by positivity)]
  exact_mod_cast Int.floor_natCast n

/-- pyInt of a positive rational is its floor. -/
theorem pyInt_of_pos {q : ℚ} (h : 0 < q) : pyInt q = ⌊q⌋ :=
  if_pos (le_of_lt h)

/-! DP table lemmas -/

/-- The DP table is non-negative. -/
theorem dp_nonneg (items : List (ℕ × ℚ)) : ∀ i w, 0 ≤ dp items i w := by
  intro i
  induction i with
  | zero => intro w; simp [dp]
  | succ i ih =>
    intro w
    simp only [dp]
    split
    · exact le_trans (ih w) (le_max_left _ _)
    · exact ih w

/-- Adding a row never decreases the DP value. -/
theorem dp_le_succ (items : List (ℕ × ℚ)) (i w : ℕ) :
    dp items i w ≤ dp items (i + 1) w := by
  simp only [dp]
  split
  · exact le_max_left _ _
  · exact le_refl _

/-- Any sublist of the first i items whose weights fit in w has value at
most dp[i][w]: one half of DP optimality. -/
theorem sub_le_dp (items : List (ℕ × ℚ)) :
    ∀ i w (s : List (ℕ × ℚ)), s.Sublist (items.take i) →
      (s.map Prod.fst).sum ≤ w → (s.map Prod.snd).sum ≤ dp items i w := by
  intro i
  induction i with
  | zero =>
    intro w s hs _
    rw [List.take_zero] at hs
    rw [List.sublist_nil.1 hs]
    simp [dp]
  | succ i ih =>
    intro w s hs hw
    by_cases hi : i < items.length
    · rw [List.take_succ, List.getElem?_eq_getElem hi] at hs
      simp only [Option.toList_some] at hs
      rcases List.sublist_append_iff.1 hs with ⟨s₁, s₂, rfl, h₁, h₂⟩
      have hx : items.getD i (0, 0) = items[i] := List.getD_eq_getElem items (0, 0) hi
      rcases List.sublist_singleton.1 h₂ with rfl | rfl
      · rw [List.append_nil] at *
        exact le_trans (ih w s₁ h₁ hw) (dp_le_succ items i w)
      · simp only [List.map_append, List.sum_append, List.map_cons, List.map_nil,
          List.sum_cons, List.sum_nil] at hw ⊢
        have hd : items[i].1 ≤ w := by omega
        have hs₁ : (s₁.map Prod.fst).sum ≤ w - items[i].1 := by omega
        have hval := ih (w - items[i].1) s₁ h₁ hs₁
        simp only [dp, hx]
        rw [if_pos hd]
        have : (s₁.map Prod.snd).sum + items[i].2 ≤ dp items i (w - items[i].1) + items[i].2 := by
          linarith
        exact le_trans (by linarith) (le_max_right _ _)
    · have hlen : items.length ≤ i := Nat.le_of_not_lt hi
      rw [List.take_of_length_le (le_trans hlen (Nat.le_succ i))] at hs
      rw [← List.take_of_length_le hlen] at hs
      exact le_trans (ih w s hs hw) (dp_le_succ items i w)

/-- Backtracking specification: the selected indices are bounded,
strictly descending, their weights fit in w, and their values sum to
exactly dp[i][w]. -/
theorem selectIdx_spec (items : List (ℕ × ℚ)) :
    ∀ i w, (∀ j ∈ selectIdx items i w, j < i) ∧
      (selectIdx items i w).Pairwise (fun a b => b < a) ∧
      ((selectIdx items i w).map fun j => (items.getD j (0, 0)).1).sum ≤ w ∧
      ((selectIdx items i w).map fun j => (items.getD j (0, 0)).2).sum = dp items i w := by
  intro i
  induction i with
  | zero =>
    intro w
    refine ⟨by simp [selectIdx], by simp [selectIdx], by simp [selectIdx], ?_⟩
    simp [selectIdx, dp]
  | succ i ih =>
    intro w
    by_cases heq : dp items (i + 1) w = dp items i w
    · rw [show selectIdx items (i + 1) w = selectIdx items i w by
        simp [selectIdx, heq]]
      obtain ⟨hb, hp, hwt, hv⟩ := ih w
      exact ⟨fun j hj => Nat.lt_succ_of_lt (hb j hj), hp, hwt, by rw [hv, heq]⟩
    · have hsel : selectIdx items (i + 1) w =
          i :: selectIdx items i (w - (items.getD i (0, 0)).1) := by
        simp [selectIdx, heq]
      have hd : (items.getD i (0, 0)).1 ≤ w := by
        by_contra hd
        apply heq
        simp only [dp]
        rw [if_neg hd]
      have hstep : dp items (i + 1) w =
          dp items i (w - (items.getD i (0, 0)).1) + (items.getD i (0, 0)).2 := by
        have : dp items (i + 1) w =
            max (dp items i w)
              (dp items i (w - (items.getD i (0, 0)).1) + (items.getD i (0, 0)).2) := by
          simp only [dp]
          rw [if_pos hd]
        rcases max_choice (dp items i w)
          (dp items i (w - (items.getD i (0, 0)).1) + (items.getD i (0, 0)).2) with hm | hm
        · exact absurd (this.trans hm) heq
        · exact this.trans hm
      obtain ⟨hb, hp, hwt, hv⟩ := ih (w - (items.getD i (0, 0)).1)
      rw [hsel]
      refine ⟨?_, ?_, ?_, ?_⟩
      · intro j hj
        rcases List.mem_cons.1 hj with rfl | hj
        · exact Nat.lt_succ_self j
        · exact Nat.lt_succ_of_lt (hb j hj)
      · exact List.Pairwise.cons (fun j hj => hb j hj) hp
      · simp only [List.map_cons, List.sum_cons]
        omega
      · simp only [List.map_cons, List.sum_cons]
        rw [hv, hstep]
        ring

/-! Index machinery -/

/-- Shifting indexed lookups past a cons cell. -/
theorem filterMap_getElem_cons_shift {α : Type} (a : α) (l : List α) :
    ∀ s : List ℕ, (∀ j ∈ s, 1 ≤ j) →
      s.filterMap (fun j => (a :: l)[j]?) =
        (s.map (· - 1)).filterMap (fun j => l[j]?) := by
  intro s
  induction s with
  | nil => intro _; rfl
  | cons j t ih =>
    intro h
    obtain ⟨m, rfl⟩ : ∃ m, j = m + 1 :=
      ⟨j - 1, by have := h j (List.mem_cons_self j t); omega⟩
    have ht := ih fun k hk => h k (List.mem_cons_of_mem _ hk)
    simp only [List.filterMap_cons, List.map_cons, List.getElem?_cons_succ,
      Nat.add_sub_cancel, ht]

/-- Indexing a list at a strictly ascending index list yields a sublist. -/
theorem asc_filterMap_sublist {α : Type} :
    ∀ (l : List α) (s : List ℕ), s.Pairwise (· < ·) →
      (s.filterMap fun j => l[j]?).Sublist l := by
  intro l
  induction l with
  | nil =>
    intro s _
    have : (s.filterMap fun j => ([] : List α)[j]?) = [] := by
      induction s with
      | nil => rfl
      | cons j t ih => simp [List.filterMap_cons, ih]
    rw [this]
  | cons a l ih =>
    intro s hp
    cases s with
    | nil => exact List.nil_sublist _
    | cons j t =>
      have hrest : t.Pairwise (· < ·) := hp.of_cons
      have hgt : ∀ k ∈ t, j < k := fun k hk => (List.pairwise_cons.1 hp).1 k hk
      have hmap : (t.map (· - 1)).Pairwise (· < ·) := by
        rw [List.pairwise_map]
        exact hrest.imp_of_mem fun {x y} hx _ hxy => by
          have := hgt x hx
          omega
      cases j with
      | zero =>
        have hge : ∀ k ∈ t, 1 ≤ k := fun k hk => hgt k hk
        rw [show ((0 :: t).filterMap fun j => (a :: l)[j]?) =
            a :: (t.filterMap fun j => (a :: l)[j]?) by
          simp [List.filterMap_cons]]
        rw [filterMap_getElem_cons_shift a l t hge]
        exact (ih _ hmap).cons₂ a
      | succ m =>
        have hge : ∀ k ∈ (m + 1) :: t, 1 ≤ k := by
          intro k hk
          rcases List.mem_cons.1 hk with rfl | hk
          · omega
          · have := hgt k hk; omega
        rw [filterMap_getElem_cons_shift a l _ hge]
        have hmap2 : (((m + 1) :: t).map (· - 1)).Pairwise (· < ·) := by
          rw [List.pairwise_map]
          refine hp.imp_of_mem fun {x y} hx _ hxy => ?_
          rcases List.mem_cons.1 hx with rfl | hx
          · omega
          · have := hgt x hx; omega
        exact (ih _ hmap2).cons a

/-- In-range indexed lookups are a plain map with getD. -/
theorem filterMap_getElem_eq_map {α : Type} (l : List α) (d : α) :
    ∀ s : List ℕ, (∀ j ∈ s, j < l.length) →
      (s.filterMap fun j => l[j]?) = s.map fun j => l.getD j d := by
  intro s
  induction s with
  | nil => intro _; rfl
  | cons j t ih =>
    intro h
    have hj : j < l.length := h j (List.mem_cons_self j t)
    rw [List.filterMap_cons, List.map_cons, List.getElem?_eq_getElem hj,
      List.getD_eq_getElem l d hj, ih fun k hk => h k (List.mem_cons_of_mem _ hk)]

/-- Indexing over the full range reproduces the list. -/
theorem range_filterMap_getElem {α : Type} :
    ∀ l : List α, ((List.range l.length).filterMap fun j => l[j]?) = l := by
  intro l
  induction l with
  | nil => rfl
  | cons a l ih =>
    rw [List.length_cons, List.range_succ_eq_map, List.filterMap_cons]
    simp only [List.getElem?_cons_zero, List.filterMap_map]
    have : ((fun j => (a :: l)[j]?) ∘ Nat.succ) = fun j => l[j]? := by
      funext j
      simp
    rw [this, ih]

/-- A strictly ascending, bounded index list is recovered by filtering
the range over membership. -/
theorem asc_filter_range {s : List ℕ} {n : ℕ} (hp : s.Pairwise (· < ·))
    (hb : ∀ j ∈ s, j < n) :
    (List.range n).filter (fun i => decide (i ∈ s)) = s := by
  haveI : IsAntisymm ℕ (· < ·) := ⟨fun a b h1 h2 => by omega⟩
  have hnd1 : ((List.range n).filter (fun i => decide (i ∈ s))).Nodup :=
    (List.nodup_range n).filter _
  have hnd2 : s.Nodup := hp.imp fun h => Nat.ne_of_lt h
  have hsort1 : ((List.range n).filter (fun i => decide (i ∈ s))).Pairwise (· < ·) :=
    (List.pairwise_lt_range n).filter _
  refine List.eq_of_perm_of_sorted ?_ hsort1 hp
  refine (List.perm_ext_iff_of_nodup hnd1 hnd2).2 fun a => ?_
  simp only [List.mem_filter, List.mem_range, decide_eq_true_eq]
  exact ⟨fun h => h.2, fun h => ⟨hb a h, h⟩⟩

/-! Solver branch equations and small bridges -/

/-- Annotation preserves the duration field. -/
theorem annotateV_duration (t : PyTask) : (annotateV t).duration = t.duration := rfl

/-- The value key attached by the exact solver. -/
theorem valD_annotateV (t : PyTask) : valD (annotateV t) = taskValue t := rfl

/-- Annotation preserves the duration field (greedy variant). -/
theorem annotateVE_duration (t : PyTask) : (annotateVE t).duration = t.duration := rfl

/-- The value key attached by the greedy solver. -/
theorem valD_annotateVE (t : PyTask) : valD (annotateVE t) = taskValue t := rfl

/-- getD commutes with map. -/
theorem getD_map {α β : Type} (f : α → β) (l : List α) (d : α) (j : ℕ)
    (h : j < l.length) : (l.map f).getD j (f d) = f (l.getD j d) := by
  rw [List.getD_eq_getElem _ _ (by simpa using h), List.getD_eq_getElem _ _ h,
    List.getElem_map]

/-- The max-fold with base 0 is non-negative. -/
theorem foldr_max_nonneg (l : List ℚ) : 0 ≤ l.foldr max 0 := by
  induction l with
  | nil => exact le_refl 0
  | cons a t ih => exact le_trans ih (le_max_right _ _)

/-- Rounding zero gives zero. -/
theorem round2_zero : round2 0 = 0 := by
  have h : rhe 0 = 0 := by
    unfold rhe
    rw [if_neg (by norm_num), round_zero]
  unfold round2
  rw [show (0 : ℚ) * 100 = 0 by ring, h]
  norm_num

/-- Degenerate branch of the exact solver. -/
theorem optimize_tasksS_degenerate (tasks : List PyTask) (q : ℚ)
    (h : tasks = [] ∨ q ≤ 0) :
    optimize_tasksS tasks q =
      (tasks, some ⟨[], tasks, 0, 0, "No tasks to optimize or no available time."⟩) := by
  unfold optimize_tasksS
  rw [if_pos h]

/-- Degenerate branch of the greedy solver. -/
theorem optimize_tasks_fractionalS_degenerate (tasks : List PyTask) (q : ℚ)
    (h : tasks = [] ∨ q ≤ 0) :
    optimize_tasks_fractionalS tasks q =
      (tasks, ⟨[], tasks, 0, 0, "No tasks to optimize or no available time.", none⟩) := by
  unfold optimize_tasks_fractionalS
  rw [if_pos h]

/-- Main branch of the exact solver, expressed through the observer
definitions. -/
theorem optimize_tasksS_main (tasks : List PyTask) (q : ℚ)
    (h1 : ¬(tasks = [] ∨ q ≤ 0)) (h2 : ∀ t ∈ tasks, 0 ≤ pyInt t.duration) :
    optimize_tasksS tasks q =
      (tasks.map annotateV,
        some ⟨exactOpt tasks q, exactSkip tasks q,
          ((exactOpt tasks q).map PyTask.duration).sum,
          round2 (((exactOpt tasks q).map valD).sum),
          generate_explanation (exactOpt tasks q) (exactSkip tasks q)
            ((exactOpt tasks q).map PyTask.duration).sum q category_weights⟩) := by
  unfold optimize_tasksS
  rw [if_neg h1]
  have hfalse : ((tasks.map annotateV).any fun t => decide (pyInt t.duration < 0)) = false := by
    rw [List.any_eq_false]
    intro t ht
    rcases List.mem_map.1 ht with ⟨u, hu, rfl⟩
    rw [annotateV_duration]
    simp only [decide_eq_true_eq]
    exact fun hc => absurd (h2 u hu) (not_le_of_lt hc)
  simp only [hfalse, Bool.false_eq_true, if_false]
  rfl

/-- Main branch of the greedy solver. -/
theorem optimize_tasks_fractionalS_main (tasks : List PyTask) (q : ℚ)
    (h1 : ¬(tasks = [] ∨ q ≤ 0)) :
    optimize_tasks_fractionalS tasks q =
      (tasks.map annotateVE,
        ⟨(fracLoop (sortedVE tasks) q).opt, (fracLoop (sortedVE tasks) q).skip,
          (fracLoop (sortedVE tasks) q).total_time,
          round2 (fracLoop (sortedVE tasks) q).total_value,
          generate_explanation_fractional (fracLoop (sortedVE tasks) q).opt
            (fracLoop (sortedVE tasks) q).skip
            (fracLoop (sortedVE tasks) q).total_time q category_weights
            (fracLoop (sortedVE tasks) q).flag,
          some (fracLoop (sortedVE tasks) q).flag⟩) := by
  unfold optimize_tasks_fractionalS
  rw [if_neg h1]
  rfl

/-- natQ rationals have non-negative pyInt that casts back. -/
theorem natQ_pyInt {q : ℚ} (h : natQ q) :
    0 ≤ pyInt q ∧ ((pyInt q).toNat : ℚ) = q := by
  obtain ⟨n, rfl⟩ := natQ_iff.1 h
  rw [pyInt_natCast]
  exact ⟨Int.natCast_nonneg n, by simp⟩

/-- The truncated capacity is at most the capacity. -/
theorem toNat_pyInt_le {q : ℚ} (hq : 0 < q) : ((pyInt q).toNat : ℚ) ≤ q := by
  rw [pyInt_of_pos hq]
  have h0 : 0 ≤ ⌊q⌋ := Int.floor_nonneg.2 (le_of_lt hq)
  rw [show ((⌊q⌋.toNat : ℕ) : ℚ) = ((⌊q⌋.toNat : ℤ) : ℚ) by push_cast; ring,
    Int.toNat_of_nonneg h0]
  exact Int.floor_le q

/-- A natural that embeds below a positive capacity is at most the
truncated capacity. -/
theorem nat_le_toNat_pyInt {q : ℚ} {s : ℕ} (hq : 0 < q) (hs : (s : ℚ) ≤ q) :
    s ≤ (pyInt q).toNat := by
  rw [pyInt_of_pos hq]
  have : (s : ℤ) ≤ ⌊q⌋ := Int.le_floor.2 (by exact_mod_cast hs)
  omega

/-- The default item is the itemFn image of the default task. -/
theorem itemFn_dflt : itemFn dfltTask = (0, 0) := by
  unfold itemFn dfltTask mkTask valD pyInt
  norm_num

/-- Central facts about the exact solver's recovered subset: it is a
sublist of the annotated tasks, its truncated durations fit in the
truncated capacity, and its values sum to the DP optimum. -/
theorem exact_main_facts (tasks : List PyTask) (q : ℚ) :
    (exactOpt tasks q).Sublist (tasks.map annotateV) ∧
    ((exactOpt tasks q).map fun t => (pyInt t.duration).toNat).sum ≤ (pyInt q).toNat ∧
    ((exactOpt tasks q).map valD).sum =
      dp (exactItems tasks) (tasks.map annotateV).length (pyInt q).toNat := by
  obtain ⟨hb, hp, hwt, hv⟩ :=
    selectIdx_spec (exactItems tasks) (tasks.map annotateV).length (pyInt q).toNat
  have hasc : (exactSel tasks q).Pairwise (· < ·) := by
    unfold exactSel
    exact List.pairwise_reverse.mpr hp
  have hbound : ∀ j ∈ exactSel tasks q, j < (tasks.map annotateV).length := by
    intro j hj
    unfold exactSel at hj
    exact hb j (List.mem_reverse.1 hj)
  have hsub : (exactOpt tasks q).Sublist (tasks.map annotateV) := by
    unfold exactOpt
    exact asc_filterMap_sublist (tasks.map annotateV) (exactSel tasks q) hasc
  have hmap : exactOpt tasks q =
      (exactSel tasks q).map fun j => (tasks.map annotateV).getD j dfltTask := by
    unfold exactOpt
    exact filterMap_getElem_eq_map (tasks.map annotateV) dfltTask (exactSel tasks q) hbound
  have hitem : ∀ j ∈ exactSel tasks q,
      (exactItems tasks).getD j (0, 0) =
        itemFn ((tasks.map annotateV).getD j dfltTask) := by
    intro j hj
    rw [← itemFn_dflt]
    exact getD_map itemFn (tasks.map annotateV) dfltTask j (hbound j hj)
  refine ⟨hsub, ?_, ?_⟩
  · have : ((exactOpt tasks q).map fun t => (pyInt t.duration).toNat).sum =
        ((exactSel tasks q).map fun j => ((exactItems tasks).getD j (0, 0)).1).sum := by
      rw [hmap, List.map_map]
      refine congrArg List.sum (List.map_congr_left ?_)
      intro j hj
      rw [hitem j hj]
      rfl
    rw [this]
    unfold exactSel
    rw [List.map_reverse, List.sum_reverse]
    exact hwt
  · have : ((exactOpt tasks q).map valD).sum =
        ((exactSel tasks q).map fun j => ((exactItems tasks).getD j (0, 0)).2).sum := by
      rw [hmap, List.map_map]
      refine congrArg List.sum (List.map_congr_left ?_)
      intro j hj
      rw [hitem j hj]
      rfl
    rw [this]
    unfold exactSel
    rw [List.map_reverse, List.sum_reverse]
    exact hv

/-- Indexed lookups into a mapped list factor through the map. -/
theorem filterMap_getElem_map_comm {α β : Type} (f : α → β) (l : List α)
    (s : List ℕ) :
    (s.filterMap fun j => (l.map f)[j]?) = (s.filterMap fun j => l[j]?).map f := by
  rw [List.map_filterMap]
  simp only [List.getElem?_map]

/-- The recovered index list of the exact solver is strictly ascending. -/
theorem exactSel_asc (tasks : List PyTask) (q : ℚ) :
    (exactSel tasks q).Pairwise (· < ·) := by
  unfold exactSel
  exact List.pairwise_reverse.mpr
    (selectIdx_spec (exactItems tasks) (tasks.map annotateV).length
      (pyInt q).toNat).2.1

/-- The exact solver's included tasks are the annotated image of a
sublist of the caller's tasks. -/
theorem exactOpt_eq_annotate_sub (tasks : List PyTask) (q : ℚ) :
    ((exactSel tasks q).filterMap fun j => tasks[j]?).Sublist tasks ∧
    exactOpt tasks q = ((exactSel tasks q).filterMap fun j => tasks[j]?).map annotateV := by
  constructor
  · exact asc_filterMap_sublist tasks (exactSel tasks q) (exactSel_asc tasks q)
  · unfold exactOpt
    exact filterMap_getElem_map_comm annotateV tasks (exactSel tasks q)

/-- Sum of natQ durations equals the cast of the sum of their truncated
durations. -/
theorem natQ_dur_sum_cast {l : List PyTask} (h : ∀ t ∈ l, natQ t.duration) :
    (l.map PyTask.duration).sum =
      (((l.map fun t => (pyInt t.duration).toNat).sum : ℕ) : ℚ) := by
  induction l with
  | nil => simp
  | cons a t ih =>
    have ha := (natQ_pyInt (h a (List.mem_cons_self a t))).2
    have ht := ih fun u hu => h u (List.mem_cons_of_mem _ hu)
    simp only [List.map_cons, List.sum_cons]
    push_cast
    push_cast at ht
    linarith [ha, ht]

/-- On the main branch with integer durations, the unrounded total value
of the exact solver equals the spec-side subset maximum. -/
theorem exact_value_eq_specMax (tasks : List PyTask) (q : ℚ)
    (hd : ∀ t ∈ tasks, natQ t.duration) (hq : 0 < q) :
    ((exactOpt tasks q).map valD).sum = specMaxValue tasks q := by
  obtain ⟨hsubT, hopt⟩ := exactOpt_eq_annotate_sub tasks q
  obtain ⟨hsub, hwt, hv⟩ := exact_main_facts tasks q
  have hdurs : ∀ t ∈ exactOpt tasks q, natQ t.duration := by
    intro t ht
    rw [hopt] at ht
    rcases List.mem_map.1 ht with ⟨u, hu, rfl⟩
    rw [annotateV_duration]
    exact hd u (List.Sublist.mem hu hsubT)
  apply le_antisymm
  · -- the recovered subset is a feasible candidate
    have hval : ((exactOpt tasks q).map valD).sum =
        (((exactSel tasks q).filterMap fun j => tasks[j]?).map taskValue).sum := by
      rw [hopt, List.map_map]
      rfl
    have hdur : (((exactSel tasks q).filterMap fun j => tasks[j]?).map PyTask.duration).sum =
        ((exactOpt tasks q).map PyTask.duration).sum := by
      rw [hopt, List.map_map]
      rfl
    have hfeas : (((exactSel tasks q).filterMap fun j => tasks[j]?).map PyTask.duration).sum ≤ q := by
      rw [hdur, natQ_dur_sum_cast hdurs]
      calc (((exactOpt tasks q).map fun t => (pyInt t.duration).toNat).sum : ℚ)
          ≤ ((pyInt q).toNat : ℚ) := by exact_mod_cast hwt
        _ ≤ q := toNat_pyInt_le hq
    rw [hval]
    apply le_foldr_max
    refine List.mem_map.2 ⟨(exactSel tasks q).filterMap fun j => tasks[j]?, ?_, rfl⟩
    refine List.mem_filter.2 ⟨List.mem_sublists.2 hsubT, ?_⟩
    simpa using hfeas
  · rw [hv]
    apply foldr_max_le (dp_nonneg _ _ _)
    intro v hvmem
    rcases List.mem_map.1 hvmem with ⟨s, hsf, rfl⟩
    rcases List.mem_filter.1 hsf with ⟨hmem, hcond⟩
    have hs : s.Sublist tasks := List.mem_sublists.1 hmem
    have hfeas : (s.map PyTask.duration).sum ≤ q := by simpa using hcond
    have hnat : ∀ t ∈ s, natQ t.duration := fun t ht => hd t (List.Sublist.mem ht hs)
    have hcast := natQ_dur_sum_cast hnat
    have hWn : (s.map fun t => (pyInt t.duration).toNat).sum ≤ (pyInt q).toNat := by
      apply nat_le_toNat_pyInt hq
      rw [← hcast]
      exact hfeas
    have hs' : ((s.map annotateV).map itemFn).Sublist (exactItems tasks) :=
      List.Sublist.map itemFn (List.Sublist.map annotateV hs)
    have htake : (exactItems tasks).take (tasks.map annotateV).length = exactItems tasks := by
      have : (exactItems tasks).length = (tasks.map annotateV).length := by
        unfold exactItems
        rw [List.length_map]
      rw [← this, List.take_length]
    have := sub_le_dp (exactItems tasks) (tasks.map annotateV).length (pyInt q).toNat
      ((s.map annotateV).map itemFn) (by rw [htake]; exact hs') ?_
    · calc (s.map taskValue).sum
          = (((s.map annotateV).map itemFn).map Prod.snd).sum := by
            rw [List.map_map, List.map_map]
            rfl
        _ ≤ dp (exactItems tasks) (tasks.map annotateV).length (pyInt q).toNat := this
    · calc (((s.map annotateV).map itemFn).map Prod.fst).sum
          = (s.map fun t => (pyInt t.duration).toNat).sum := by
            rw [List.map_map, List.map_map]
            rfl
        _ ≤ (pyInt q).toNat := hWn

/-- The spec-side maximum degenerates to zero on an empty list or
non-positive capacity, given positive durations. -/
theorem specMaxValue_degenerate (tasks : List PyTask) (q : ℚ)
    (hd : ∀ t ∈ tasks, 0 < t.duration) (h : tasks = [] ∨ q ≤ 0) :
    specMaxValue tasks q = 0 := by
  apply le_antisymm
  · apply foldr_max_le (le_refl 0)
    intro v hv
    rcases List.mem_map.1 hv with ⟨s, hsf, rfl⟩
    rcases List.mem_filter.1 hsf with ⟨hmem, hcond⟩
    have hs : s.Sublist tasks := List.mem_sublists.1 hmem
    have hfeas : (s.map PyTask.duration).sum ≤ q := by simpa using hcond
    rcases h with rfl | hq
    · rw [List.sublist_nil.1 hs]
      simp
    · cases s with
      | nil => simp
      | cons a t =>
        exfalso
        have hpos : ∀ u ∈ a :: t, 0 < u.duration :=
          fun u hu => hd u (List.Sublist.mem hu hs)
        have : 0 < ((a :: t).map PyTask.duration).sum := by
          simp only [List.map_cons, List.sum_cons]
          have h1 : 0 < a.duration := hpos a (List.mem_cons_self a t)
          have h2 : 0 ≤ (t.map PyTask.duration).sum := by
            apply List.sum_nonneg
            intro x hx
            rcases List.mem_map.1 hx with ⟨u, hu, rfl⟩
            exact le_of_lt (hpos u (List.mem_cons_of_mem _ hu))
          linarith
        linarith
  · exact foldr_max_nonneg _

/-- Feasibility of the exact solver's main branch against the raw
capacity, for integer durations. -/
theorem exactOpt_time_le (tasks : List PyTask) (q : ℚ)
    (hd : ∀ t ∈ tasks, natQ t.duration) (hq : 0 < q) :
    ((exactOpt tasks q).map PyTask.duration).sum ≤ q := by
  obtain ⟨hsubT, hopt⟩ := exactOpt_eq_annotate_sub tasks q
  obtain ⟨hsub, hwt, hv⟩ := exact_main_facts tasks q
  have hdurs : ∀ t ∈ exactOpt tasks q, natQ t.duration := by
    intro t ht
    rw [hopt] at ht
    rcases List.mem_map.1 ht with ⟨u, hu, rfl⟩
    rw [annotateV_duration]
    exact hd u (List.Sublist.mem hu hsubT)
  rw [natQ_dur_sum_cast hdurs]
  calc (((exactOpt tasks q).map fun t => (pyInt t.duration).toNat).sum : ℚ)
      ≤ ((pyInt q).toNat : ℚ) := by exact_mod_cast hwt
    _ ≤ q := toNat_pyInt_le hq

/-! Claim theorems -/

/-- C1: for every task list with integer positive durations and every
capacity, the exact solver's total_value equals the rounded maximum,
over all subsets whose summed durations fit the capacity, of the summed
task values; concretely, on the two-task health/work scenario with W=30
the work task alone is selected with totalTime 30 and totalValue 6.0. -/
theorem C1_exact_optimality :
    (∀ (tasks : List PyTask) (q : ℚ),
        (∀ t ∈ tasks, natQ t.duration ∧ 0 < t.duration) →
        ∃ r, optimize_tasks tasks q = some r ∧
          r.total_value = round2 (specMaxValue tasks q)) ∧
    ((optimize_tasks [mkTask "h" 30 3 "health", mkTask "w" 30 5 "work"] 30).map
        fun r => (r.optimized_tasks, r.total_time, r.total_value)) =
      some ([annotateV (mkTask "w" 30 5 "work")], 30, 6) := by
  constructor
  · intro tasks q hd
    by_cases hdeg : tasks = [] ∨ q ≤ 0
    · refine ⟨⟨[], tasks, 0, 0, "No tasks to optimize or no available time."⟩, ?_, ?_⟩
      · show (optimize_tasksS tasks q).2 = _
        rw [optimize_tasksS_degenerate _ _ hdeg]
      · show (0 : ℚ) = round2 (specMaxValue tasks q)
        rw [specMaxValue_degenerate tasks q (fun t ht => (hd t ht).2) hdeg, round2_zero]
    · have hq : 0 < q := by
        rcases not_or.1 hdeg with ⟨_, h2⟩
        exact lt_of_not_le h2
      have h2 : ∀ t ∈ tasks, 0 ≤ pyInt t.duration :=
        fun t ht => (natQ_pyInt (hd t ht).1).1
      refine ⟨⟨exactOpt tasks q, exactSkip tasks q,
          ((exactOpt tasks q).map PyTask.duration).sum,
          round2 (((exactOpt tasks q).map valD).sum),
          generate_explanation (exactOpt tasks q) (exactSkip tasks q)
            ((exactOpt tasks q).map PyTask.duration).sum q category_weights⟩, ?_, ?_⟩
      · show (optimize_tasksS tasks q).2 = _
        rw [optimize_tasksS_main tasks q hdeg h2]
      · show round2 (((exactOpt tasks q).map valD).sum) = round2 (specMaxValue tasks q)
        rw [exact_value_eq_specMax tasks q (fun t ht => (hd t ht).1) hq]
  · with_unfolding_all decide

/-- C1 witness: the hypotheses hold and the conclusion follows at a
concrete input. -/
theorem C1_exact_optimality_witness :
    (∀ t ∈ [mkTask "a" 10 2 "chore"], natQ t.duration ∧ 0 < t.duration) ∧
    (∃ r, optimize_tasks [mkTask "a" 10 2 "chore"] 7 = some r ∧
      r.total_value = round2 (specMaxValue [mkTask "a" 10 2 "chore"] 7)) :=
  ⟨by with_unfolding_all decide,
    C1_exact_optimality.1 [mkTask "a" 10 2 "chore"] 7 (by with_unfolding_all decide)⟩

/-- C2: for every task list with integer durations and every non-negative
capacity, the exact solver succeeds and its total_time (the sum of the
included durations) is at most the capacity. -/
theorem C2_exact_feasibility (tasks : List PyTask) (q : ℚ)
    (hd : ∀ t ∈ tasks, natQ t.duration) (hq : 0 ≤ q) :
    ∃ r, optimize_tasks tasks q = some r ∧ r.total_time ≤ q := by
  by_cases hdeg : tasks = [] ∨ q ≤ 0
  · refine ⟨⟨[], tasks, 0, 0, "No tasks to optimize or no available time."⟩, ?_, ?_⟩
    · show (optimize_tasksS tasks q).2 = _
      rw [optimize_tasksS_degenerate _ _ hdeg]
    · exact hq
  · have hq' : 0 < q := by
      rcases not_or.1 hdeg with ⟨_, h2⟩
      exact lt_of_not_le h2
    have h2 : ∀ t ∈ tasks, 0 ≤ pyInt t.duration :=
      fun t ht => (natQ_pyInt (hd t ht)).1
    refine ⟨⟨exactOpt tasks q, exactSkip tasks q,
        ((exactOpt tasks q).map PyTask.duration).sum,
        round2 (((exactOpt tasks q).map valD).sum),
        generate_explanation (exactOpt tasks q) (exactSkip tasks q)
          ((exactOpt tasks q).map PyTask.duration).sum q category_weights⟩, ?_, ?_⟩
    · show (optimize_tasksS tasks q).2 = _
      rw [optimize_tasksS_main tasks q hdeg h2]
    · exact exactOpt_time_le tasks q hd hq'

/-- C2 witness at a concrete input with fractional capacity. -/
theorem C2_exact_feasibility_witness :
    ((∀ t ∈ [mkTask "a" 10 2 "work", mkTask "b" 25 1 "chore"], natQ t.duration) ∧
      (0 : ℚ) ≤ 61/2) ∧
    (∃ r, optimize_tasks [mkTask "a" 10 2 "work", mkTask "b" 25 1 "chore"] (61/2) = some r ∧
      r.total_time ≤ 61/2) :=
  ⟨⟨by with_unfolding_all decide, by with_unfolding_all decide⟩,
    C2_exact_feasibility [mkTask "a" 10 2 "work", mkTask "b" 25 1 "chore"] (61/2)
      (by with_unfolding_all decide) (by with_unfolding_all decide)⟩

/-- C5 counterexample: on two identical chore tasks with W=10 the exact
solver includes the earlier-indexed task, not the later-indexed one the
claim announces (the two annotated records differ in their name field,
so the included list is not the annotated later task). -/
theorem C5_counterexample :
    ((optimize_tasks [mkTask "a" 10 1 "chore", mkTask "b" 10 1 "chore"] 10).map
        fun r => (r.optimized_tasks, r.skipped_tasks, r.total_time)) =
      some ([annotateV (mkTask "a" 10 1 "chore")],
        [annotateV (mkTask "b" 10 1 "chore")], 10) ∧
    annotateV (mkTask "a" 10 1 "chore") ≠ annotateV (mkTask "b" 10 1 "chore") := by
  with_unfolding_all decide

/-- C5 amended: the backward scan includes task i-1 only when dp[i][w]
differs from dp[i-1][w], so among ties the earlier-indexed task is the
one recovered; on two identical chore tasks with W=10 exactly one task
is included, the earlier-indexed one, with totalTime 10. -/
theorem C5_tie_break_earlier :
    ((optimize_tasks [mkTask "a" 10 1 "chore", mkTask "b" 10 1 "chore"] 10).map
        fun r => (r.optimized_tasks.length, r.optimized_tasks, r.total_time)) =
      some (1, [annotateV (mkTask "a" 10 1 "chore")], 10) := by
  with_unfolding_all decide

/-- C6: an empty task list or non-positive capacity yields the defined
zero result for both solvers: nothing included, the full input list
excluded, zero totals, and the no-optimization explanation. -/
theorem C6_degenerate_zero (tasks : List PyTask) (q : ℚ)
    (h : tasks = [] ∨ q ≤ 0) :
    optimize_tasks tasks q =
      some ⟨[], tasks, 0, 0, "No tasks to optimize or no available time."⟩ ∧
    optimize_tasks_fractional tasks q =
      ⟨[], tasks, 0, 0, "No tasks to optimize or no available time.", none⟩ := by
  constructor
  · show (optimize_tasksS tasks q).2 = _
    rw [optimize_tasksS_degenerate _ _ h]
  · show (optimize_tasks_fractionalS tasks q).2 = _
    rw [optimize_tasks_fractionalS_degenerate _ _ h]

/-- C6 witness: an empty list with positive capacity, and a non-empty
list with negative capacity. -/
theorem C6_degenerate_zero_witness :
    (([] : List PyTask) = [] ∨ (100 : ℚ) ≤ 0) ∧
    (optimize_tasks [] 100 =
      some ⟨[], [], 0, 0, "No tasks to optimize or no available time."⟩ ∧
    optimize_tasks_fractional [] 100 =
      ⟨[], [], 0, 0, "No tasks to optimize or no available time.", none⟩) :=
  ⟨Or.inl rfl, C6_degenerate_zero [] 100 (Or.inl rfl)⟩

/-- C8: the code mutates caller-supplied records in place.  At a concrete
input both solvers leave the caller's task list changed after the call
(a value key, and for the greedy solver an efficiency key, has been
attached to the caller's records). -/
theorem C8_input_mutated :
    (optimize_tasksS [mkTask "t" 10 3 "work"] 5).1 ≠ [mkTask "t" 10 3 "work"] ∧
    (optimize_tasks_fractionalS [mkTask "t" 10 3 "work"] 5).1 ≠ [mkTask "t" 10 3 "work"] := by
  with_unfolding_all decide

/-- C9: the greedy solver performs no numeric-domain validation: on a
task with negative duration it silently returns a success result that
wholly includes the task and reports a negative total_time, instead of
any failure indication. -/
theorem C9_no_validation :
    (optimize_tasks_fractional [mkTask "t" (-10) 3 "work"] 5).optimized_tasks =
      [annotateVE (mkTask "t" (-10) 3 "work")] ∧
    (optimize_tasks_fractional [mkTask "t" (-10) 3 "work"] 5).skipped_tasks = [] ∧
    (optimize_tasks_fractional [mkTask "t" (-10) 3 "work"] 5).total_time = -10 := by
  with_unfolding_all decide

/-! Greedy loop lemmas -/

/-- Loop equation: empty list. -/
theorem fracLoop_nil (r : ℚ) : fracLoop [] r = ⟨[], [], 0, 0, false, r⟩ := rfl

/-- Loop equation: the task fits completely. -/
theorem fracLoop_whole {t : PyTask} {rest : List PyTask} {r : ℚ}
    (h : t.duration ≤ r) :
    fracLoop (t :: rest) r =
      ⟨t :: (fracLoop rest (r - t.duration)).opt,
        (fracLoop rest (r - t.duration)).skip,
        t.duration + (fracLoop rest (r - t.duration)).total_time,
        valD t + (fracLoop rest (r - t.duration)).total_value,
        (fracLoop rest (r - t.duration)).flag,
        (fracLoop rest (r - t.duration)).rem⟩ := by
  simp [fracLoop, h]

/-- Loop equation: partial inclusion. -/
theorem fracLoop_split {t : PyTask} {rest : List PyTask} {r : ℚ}
    (h1 : ¬ t.duration ≤ r) (h2 : 0 < r) :
    fracLoop (t :: rest) r =
      ⟨mkPartialTask t r :: (fracLoop rest 0).opt,
        (fracLoop rest 0).skip,
        r + (fracLoop rest 0).total_time,
        valD (mkPartialTask t r) + (fracLoop rest 0).total_value,
        true,
        (fracLoop rest 0).rem⟩ := by
  simp [fracLoop, h1, h2]

/-- Loop equation: no time left, task skipped. -/
theorem fracLoop_skip {t : PyTask} {rest : List PyTask} {r : ℚ}
    (h1 : ¬ t.duration ≤ r) (h2 : ¬ 0 < r) :
    fracLoop (t :: rest) r =
      ⟨(fracLoop rest r).opt, t :: (fracLoop rest r).skip,
        (fracLoop rest r).total_time, (fracLoop rest r).total_value,
        (fracLoop rest r).flag, (fracLoop rest r).rem⟩ := by
  simp [fracLoop, h1, h2]

/-- Time bookkeeping of the greedy loop for positive durations: the
accumulated time is the consumed capacity, the remaining time stays
non-negative and the accumulated time is bounded by the total duration;
moreover leftover capacity means every task was included whole. -/
theorem fracLoop_time (l : List PyTask) :
    ∀ r : ℚ, 0 ≤ r → (∀ t ∈ l, 0 < t.duration) →
      (fracLoop l r).total_time = r - (fracLoop l r).rem ∧
      0 ≤ (fracLoop l r).rem ∧
      (fracLoop l r).total_time ≤ (l.map PyTask.duration).sum ∧
      0 ≤ (fracLoop l r).total_time ∧
      (0 < (fracLoop l r).rem →
        (fracLoop l r).opt = l ∧ (fracLoop l r).skip = [] ∧
        (fracLoop l r).total_time = (l.map PyTask.duration).sum) := by
  induction l with
  | nil =>
    intro r hr _
    rw [fracLoop_nil]
    refine ⟨by ring, hr, by simp, le_refl 0, ?_⟩
    intro _
    exact ⟨rfl, rfl, by simp⟩
  | cons t rest ih =>
    intro r hr hd
    have hdt : 0 < t.duration := hd t (List.mem_cons_self t rest)
    have hdr : ∀ u ∈ rest, 0 < u.duration := fun u hu => hd u (List.mem_cons_of_mem _ hu)
    have hsum : 0 ≤ (rest.map PyTask.duration).sum := by
      apply List.sum_nonneg
      intro x hx
      rcases List.mem_map.1 hx with ⟨u, hu, rfl⟩
      exact le_of_lt (hdr u hu)
    by_cases h1 : t.duration ≤ r
    · rw [fracLoop_whole h1]
      obtain ⟨ha1, ha2, ha3, ha4, ha5⟩ := ih (r - t.duration) (by linarith) hdr
      simp only [List.map_cons, List.sum_cons]
      refine ⟨by rw [ha1]; ring, ha2, by linarith, by linarith, ?_⟩
      intro hrem
      obtain ⟨ho, hs, htt⟩ := ha5 hrem
      exact ⟨by rw [ho], hs, by rw [htt]⟩
    · by_cases h2 : 0 < r
      · rw [fracLoop_split h1 h2]
        obtain ⟨hb1, hb2, hb3, hb4, hb5⟩ := ih 0 (le_refl 0) hdr
        have hz : (fracLoop rest 0).rem = 0 ∧ (fracLoop rest 0).total_time = 0 := by
          constructor <;> linarith
        simp only [List.map_cons, List.sum_cons]
        refine ⟨by rw [hz.2, hz.1]; ring, by rw [hz.1], ?_, by linarith, ?_⟩
        · rw [hz.2]
          have : r < t.duration := lt_of_not_le h1
          linarith
        · intro hrem
          rw [hz.1] at hrem
          exact absurd hrem (lt_irrefl 0)
      · rw [fracLoop_skip h1 h2]
        obtain ⟨hc1, hc2, hc3, hc4, hc5⟩ := ih r hr hdr
        simp only [List.map_cons, List.sum_cons]
        refine ⟨hc1, hc2, by linarith, hc4, ?_⟩
        intro hrem
        exfalso
        have : (fracLoop rest r).total_time = r - (fracLoop rest r).rem := hc1
        have hr0 : r = 0 := le_antisymm (le_of_not_lt h2) hr
        rw [hr0] at this
        linarith

/-- The sorted list is a permutation of the annotated inputs. -/
theorem sortedVE_perm (tasks : List PyTask) :
    (sortedVE tasks).Perm (tasks.map annotateVE) :=
  List.perm_insertionSort effGe (tasks.map annotateVE)

/-- Members of the sorted list are annotated inputs. -/
theorem mem_sortedVE {tasks : List PyTask} {t : PyTask} (h : t ∈ sortedVE tasks) :
    ∃ u ∈ tasks, t = annotateVE u := by
  have := (sortedVE_perm tasks).mem_iff.1 h
  rcases List.mem_map.1 this with ⟨u, hu, rfl⟩
  exact ⟨u, hu, rfl⟩

/-- Sorting and annotating preserve the duration multiset sum. -/
theorem sortedVE_dur_sum (tasks : List PyTask) :
    ((sortedVE tasks).map PyTask.duration).sum = (tasks.map PyTask.duration).sum := by
  have h1 := ((sortedVE_perm tasks).map PyTask.duration).sum_eq
  rw [h1, List.map_map]
  rfl

/-- C3: for a non-empty task list with positive durations and positive
capacity, the greedy solver consumes exactly the capacity when the total
duration is at least the capacity, and includes every task whole (in
sorted order, with nothing skipped) when the capacity exceeds the total
duration. -/
theorem C3_greedy_saturation (tasks : List PyTask) (q : ℚ)
    (hne : tasks ≠ []) (hq : 0 < q) (hd : ∀ t ∈ tasks, 0 < t.duration) :
    (q ≤ (tasks.map PyTask.duration).sum →
      (optimize_tasks_fractional tasks q).total_time = q) ∧
    ((tasks.map PyTask.duration).sum < q →
      (optimize_tasks_fractional tasks q).optimized_tasks = sortedVE tasks ∧
      (optimize_tasks_fractional tasks q).skipped_tasks = [] ∧
      (optimize_tasks_fractional tasks q).total_time = (tasks.map PyTask.duration).sum) := by
  have hdeg : ¬(tasks = [] ∨ q ≤ 0) := by
    rintro (h | h)
    · exact hne h
    · linarith
  have hds : ∀ t ∈ sortedVE tasks, 0 < t.duration := by
    intro t ht
    rcases mem_sortedVE ht with ⟨u, hu, rfl⟩
    rw [annotateVE_duration]
    exact hd u hu
  have hres : optimize_tasks_fractional tasks q = (optimize_tasks_fractionalS tasks q).2 := rfl
  obtain ⟨ha1, ha2, ha3, ha4, ha5⟩ := fracLoop_time (sortedVE tasks) q (le_of_lt hq) hds
  rw [hres, optimize_tasks_fractionalS_main tasks q hdeg]
  constructor
  · intro hcap
    show (fracLoop (sortedVE tasks) q).total_time = q
    have hrem0 : (fracLoop (sortedVE tasks) q).rem = 0 := by
      by_contra hne0
      have hpos : 0 < (fracLoop (sortedVE tasks) q).rem :=
        lt_of_le_of_ne ha2 (fun h => hne0 h.symm)
      obtain ⟨_, _, htt⟩ := ha5 hpos
      rw [sortedVE_dur_sum] at htt
      rw [ha1] at htt
      linarith
    rw [ha1, hrem0]
    ring
  · intro hcap
    have hrempos : 0 < (fracLoop (sortedVE tasks) q).rem := by
      rw [sortedVE_dur_sum] at ha3
      have : (fracLoop (sortedVE tasks) q).total_time < q := lt_of_le_of_lt ha3 hcap
      rw [ha1] at this
      linarith
    obtain ⟨ho, hs, htt⟩ := ha5 hrempos
    refine ⟨ho, hs, ?_⟩
    show (fracLoop (sortedVE tasks) q).total_time = _
    rw [htt, sortedVE_dur_sum]

/-- C3 witness at a concrete saturating and a concrete slack input. -/
theorem C3_greedy_saturation_witness :
    (([mkTask "a" 20 1 "work", mkTask "b" 30 5 "health"] : List PyTask) ≠ [] ∧
      (0 : ℚ) < 40 ∧
      (∀ t ∈ [mkTask "a" 20 1 "work", mkTask "b" 30 5 "health"], 0 < t.duration)) ∧
    ((40 : ℚ) ≤ (([mkTask "a" 20 1 "work", mkTask "b" 30 5 "health"].map PyTask.duration).sum) →
      (optimize_tasks_fractional [mkTask "a" 20 1 "work", mkTask "b" 30 5 "health"] 40).total_time = 40) :=
  ⟨⟨by with_unfolding_all decide, by with_unfolding_all decide, by with_unfolding_all decide⟩,
    (C3_greedy_saturation [mkTask "a" 20 1 "work", mkTask "b" 30 5 "health"] 40
      (by with_unfolding_all decide) (by with_unfolding_all decide)
      (by with_unfolding_all decide)).1⟩

/-- The partial copy carries the is_partial marker. -/
theorem mkPartialTask_isPart (t : PyTask) (r : ℚ) :
    PyTask.isPart (mkPartialTask t r) = some true := rfl

/-- Partial-inclusion bookkeeping of the greedy loop: at most one partial
entry, never before the last position, and the flag reports existence;
with no time left nothing is included and the flag stays false. -/
theorem fracLoop_partials (l : List PyTask) :
    ∀ r : ℚ, (∀ t ∈ l, 0 < t.duration ∧ t.isPart = none) →
      ((fracLoop l r).opt.countP fun t => decide (t.isPart = some true)) ≤ 1 ∧
      (∀ p ∈ (fracLoop l r).opt.dropLast, ¬ p.isPart = some true) ∧
      ((fracLoop l r).flag = true ↔ ∃ p ∈ (fracLoop l r).opt, p.isPart = some true) ∧
      (r ≤ 0 → (fracLoop l r).opt = [] ∧ (fracLoop l r).flag = false) := by
  induction l with
  | nil =>
    intro r _
    rw [fracLoop_nil]
    refine ⟨by simp, by simp, by simp, fun _ => ⟨rfl, rfl⟩⟩
  | cons t rest ih =>
    intro r hd
    obtain ⟨hdt, hit⟩ := hd t (List.mem_cons_self t rest)
    have hdr := fun u hu => hd u (List.mem_cons_of_mem _ hu)
    by_cases h1 : t.duration ≤ r
    · rw [fracLoop_whole h1]
      obtain ⟨i1, i2, i3, i4⟩ := ih (r - t.duration) hdr
      have htfalse : (decide (t.isPart = some true)) = false := by
        rw [hit]
        simp
      refine ⟨?_, ?_, ?_, ?_⟩
      · rw [List.countP_cons, htfalse]
        simpa using i1
      · intro p hp
        cases hopt : (fracLoop rest (r - t.duration)).opt with
        | nil =>
          rw [hopt] at hp
          simp at hp
        | cons x xs =>
          rw [hopt] at hp
          rw [List.dropLast_cons₂] at hp
          rcases List.mem_cons.1 hp with rfl | hp
          · rw [hit]
            simp
          · rw [← hopt] at hp
            exact i2 p (by rw [hopt]; rw [hopt] at hp; exact hp)
      · rw [i3]
        constructor
        · rintro ⟨p, hp, hpp⟩
          exact ⟨p, List.mem_cons_of_mem _ hp, hpp⟩
        · rintro ⟨p, hp, hpp⟩
          rcases List.mem_cons.1 hp with rfl | hp
          · exact absurd hpp (by rw [hit]; simp)
          · exact ⟨p, hp, hpp⟩
      · intro hr0
        exact absurd (lt_of_lt_of_le hdt h1) (by linarith)
    · by_cases h2 : 0 < r
      · rw [fracLoop_split h1 h2]
        obtain ⟨i1, i2, i3, i4⟩ := ih 0 hdr
        obtain ⟨hoz, hfz⟩ := i4 (le_refl 0)
        refine ⟨?_, ?_, ?_, ?_⟩
        · rw [hoz, List.countP_cons]
          simp only [List.countP_nil, Nat.zero_add]
          split <;> omega
        · intro p hp
          rw [hoz] at hp
          simp at hp
        · rw [hoz]
          constructor
          · intro _
            exact ⟨mkPartialTask t r, List.mem_cons_self _ _, mkPartialTask_isPart t r⟩
          · intro _
            rfl
        · intro hr0
          linarith
      · rw [fracLoop_skip h1 h2]
        obtain ⟨i1, i2, i3, i4⟩ := ih r hdr
        exact ⟨i1, i2, i3, fun hr0 => i4 hr0⟩

/-- C10: for a non-empty raw task list with positive durations and
positive capacity, the greedy result has at most one partial entry, any
partial entry is the last included task, and the partial_inclusion flag
is some true exactly when a partial entry exists. -/
theorem C10_one_partial_entry (tasks : List PyTask) (q : ℚ)
    (hne : tasks ≠ []) (hq : 0 < q)
    (hd : ∀ t ∈ tasks, 0 < t.duration ∧ t.isPart = none) :
    ((optimize_tasks_fractional tasks q).optimized_tasks.countP
      fun t => decide (t.isPart = some true)) ≤ 1 ∧
    (∀ p ∈ (optimize_tasks_fractional tasks q).optimized_tasks.dropLast,
      ¬ p.isPart = some true) ∧
    ((optimize_tasks_fractional tasks q).partIncl = some true ↔
      ∃ p ∈ (optimize_tasks_fractional tasks q).optimized_tasks,
        p.isPart = some true) := by
  have hdeg : ¬(tasks = [] ∨ q ≤ 0) := by
    rintro (h | h)
    · exact hne h
    · linarith
  have hds : ∀ t ∈ sortedVE tasks, 0 < t.duration ∧ t.isPart = none := by
    intro t ht
    rcases mem_sortedVE ht with ⟨u, hu, rfl⟩
    exact ⟨by rw [annotateVE_duration]; exact (hd u hu).1, (hd u hu).2⟩
  obtain ⟨i1, i2, i3, _⟩ := fracLoop_partials (sortedVE tasks) q hds
  have hres : optimize_tasks_fractional tasks q = (optimize_tasks_fractionalS tasks q).2 := rfl
  rw [hres, optimize_tasks_fractionalS_main tasks q hdeg]
  refine ⟨i1, i2, ?_⟩
  show some (fracLoop (sortedVE tasks) q).flag = some true ↔ _
  rw [Option.some_inj]
  exact i3

/-- C10 witness at a concrete input producing one partial inclusion. -/
theorem C10_one_partial_entry_witness :
    (([mkTask "a" 20 1 "work", mkTask "b" 30 5 "health"] : List PyTask) ≠ [] ∧
      (0 : ℚ) < 40 ∧
      (∀ t ∈ [mkTask "a" 20 1 "work", mkTask "b" 30 5 "health"],
        0 < t.duration ∧ t.isPart = none)) ∧
    ((optimize_tasks_fractional [mkTask "a" 20 1 "work", mkTask "b" 30 5 "health"] 40).optimized_tasks.countP
      fun t => decide (t.isPart = some true)) ≤ 1 :=
  ⟨⟨by with_unfolding_all decide, by with_unfolding_all decide,
      by with_unfolding_all decide⟩,
    (C10_one_partial_entry [mkTask "a" 20 1 "work", mkTask "b" 30 5 "health"] 40
      (by with_unfolding_all decide) (by with_unfolding_all decide)
      (by with_unfolding_all decide)).1⟩

/-- The recovered indices are bounded by the task count. -/
theorem exactSel_bound (tasks : List PyTask) (q : ℚ) :
    ∀ j ∈ exactSel tasks q, j < (tasks.map annotateV).length := by
  intro j hj
  unfold exactSel at hj
  exact (selectIdx_spec (exactItems tasks) (tasks.map annotateV).length
    (pyInt q).toNat).1 j (List.mem_reverse.1 hj)

/-- The exact solver's included and skipped lists partition the annotated
input by identity. -/
theorem exact_partition (tasks : List PyTask) (q : ℚ) :
    (exactOpt tasks q ++ exactSkip tasks q).Perm (tasks.map annotateV) := by
  have hasc := exactSel_asc tasks q
  have hbound := exactSel_bound tasks q
  have hself : (List.range (tasks.map annotateV).length).filter
      (fun i => decide (i ∈ exactSel tasks q)) = exactSel tasks q :=
    asc_filter_range hasc hbound
  have hperm := List.filter_append_perm (fun i => decide (i ∈ exactSel tasks q))
    (List.range (tasks.map annotateV).length)
  have hfm := hperm.filterMap (fun j => (tasks.map annotateV)[j]?)
  rw [List.filterMap_append, range_filterMap_getElem] at hfm
  have hfun : (fun i => !(decide (i ∈ exactSel tasks q))) =
      (fun i => decide (¬ i ∈ exactSel tasks q)) := by
    funext i
    simp [decide_not]
  rw [hfun] at hfm
  have ho : exactOpt tasks q =
      ((List.range (tasks.map annotateV).length).filter
        (fun i => decide (i ∈ exactSel tasks q))).filterMap
        (fun j => (tasks.map annotateV)[j]?) := by
    rw [hself]
    rfl
  rw [ho]
  exact hfm

/-- Partition bookkeeping of the greedy loop: the included list is a list
of displayed records, each either an unchanged task or a partial copy of
one, the originals together with the skipped list are a permutation of
the processed list, and at most one proper substitution occurs. -/
theorem fracLoop_partition (l : List PyTask) :
    ∀ r : ℚ, (∀ t ∈ l, 0 < t.duration) →
      ∃ subst : List (PyTask × PyTask),
        (fracLoop l r).opt = subst.map Prod.fst ∧
        ((subst.map Prod.snd) ++ (fracLoop l r).skip).Perm l ∧
        (∀ p ∈ subst, p.1 = p.2 ∨ ∃ rt : ℚ, 0 < rt ∧ rt < p.2.duration ∧
          p.1 = mkPartialTask p.2 rt) ∧
        (subst.countP fun p => decide (p.1 ≠ p.2)) ≤ 1 ∧
        (r ≤ 0 → subst = []) := by
  induction l with
  | nil =>
    intro r _
    refine ⟨[], by rw [fracLoop_nil]; rfl, ?_, by simp, by simp, fun _ => rfl⟩
    rw [fracLoop_nil]
    exact List.Perm.nil
  | cons t rest ih =>
    intro r hd
    have hdt : 0 < t.duration := hd t (List.mem_cons_self t rest)
    have hdr := fun u hu => hd u (List.mem_cons_of_mem _ hu)
    by_cases h1 : t.duration ≤ r
    · obtain ⟨s, hs1, hs2, hs3, hs4, hs5⟩ := ih (r - t.duration) hdr
      refine ⟨(t, t) :: s, ?_, ?_, ?_, ?_, ?_⟩
      · rw [fracLoop_whole h1, List.map_cons, hs1]
      · rw [fracLoop_whole h1, List.map_cons]
        exact List.Perm.cons t hs2
      · intro p hp
        rcases List.mem_cons.1 hp with rfl | hp
        · exact Or.inl rfl
        · exact hs3 p hp
      · rw [List.countP_cons]
        simpa using hs4
      · intro hr0
        exact absurd (lt_of_lt_of_le hdt h1) (by linarith)
    · by_cases h2 : 0 < r
      · obtain ⟨s, hs1, hs2, hs3, hs4, hs5⟩ := ih 0 hdr
        have hsz : s = [] := hs5 (le_refl 0)
        subst hsz
        have hoz : (fracLoop rest 0).opt = [] := by rw [hs1]; rfl
        refine ⟨[(mkPartialTask t r, t)], ?_, ?_, ?_, ?_, ?_⟩
        · rw [fracLoop_split h1 h2, hoz]
          rfl
        · rw [fracLoop_split h1 h2]
          show (t :: (fracLoop rest 0).skip).Perm (t :: rest)
          refine List.Perm.cons t ?_
          simpa using hs2
        · intro p hp
          rcases List.mem_cons.1 hp with rfl | hp
          · exact Or.inr ⟨r, h2, lt_of_not_le h1, rfl⟩
          · cases hp
        · rw [List.countP_cons, List.countP_nil]
          split <;> omega
        · intro hr0
          linarith
      · obtain ⟨s, hs1, hs2, hs3, hs4, hs5⟩ := ih r hdr
        refine ⟨s, ?_, ?_, hs3, hs4, fun _ => hs5 (le_of_not_lt h2)⟩
        · rw [fracLoop_skip h1 h2]
          exact hs1
        · rw [fracLoop_skip h1 h2]
          exact List.Perm.trans List.perm_middle (List.Perm.cons t hs2)

/-- C4: for inputs with positive durations, the exact solver partitions
the (annotated) caller list between included and skipped tasks, and the
greedy solver does the same up to at most one partial-copy substitution
whose original is recoverable. -/
theorem C4_partition (tasks : List PyTask) (q : ℚ)
    (hd : ∀ t ∈ tasks, 0 < t.duration) :
    (∃ r, optimize_tasks tasks q = some r ∧
      (r.optimized_tasks ++ r.skipped_tasks).Perm (optimize_tasksS tasks q).1) ∧
    (∃ subst : List (PyTask × PyTask),
      (optimize_tasks_fractional tasks q).optimized_tasks = subst.map Prod.fst ∧
      ((subst.map Prod.snd) ++ (optimize_tasks_fractional tasks q).skipped_tasks).Perm
        (optimize_tasks_fractionalS tasks q).1 ∧
      (∀ p ∈ subst, p.1 = p.2 ∨ ∃ rt : ℚ, 0 < rt ∧ rt < p.2.duration ∧
        p.1 = mkPartialTask p.2 rt) ∧
      (subst.countP fun p => decide (p.1 ≠ p.2)) ≤ 1) := by
  constructor
  · by_cases hdeg : tasks = [] ∨ q ≤ 0
    · refine ⟨⟨[], tasks, 0, 0, "No tasks to optimize or no available time."⟩, ?_, ?_⟩
      · show (optimize_tasksS tasks q).2 = _
        rw [optimize_tasksS_degenerate _ _ hdeg]
      · rw [optimize_tasksS_degenerate _ _ hdeg]
        simp
    · have h2 : ∀ t ∈ tasks, 0 ≤ pyInt t.duration := by
        intro t ht
        rw [pyInt_of_pos (hd t ht)]
        exact Int.floor_nonneg.2 (le_of_lt (hd t ht))
      refine ⟨⟨exactOpt tasks q, exactSkip tasks q,
          ((exactOpt tasks q).map PyTask.duration).sum,
          round2 (((exactOpt tasks q).map valD).sum),
          generate_explanation (exactOpt tasks q) (exactSkip tasks q)
            ((exactOpt tasks q).map PyTask.duration).sum q category_weights⟩, ?_, ?_⟩
      · show (optimize_tasksS tasks q).2 = _
        rw [optimize_tasksS_main tasks q hdeg h2]
      · rw [optimize_tasksS_main tasks q hdeg h2]
        exact exact_partition tasks q
  · by_cases hdeg : tasks = [] ∨ q ≤ 0
    · refine ⟨[], ?_, ?_, by simp, by simp⟩
      · show ((optimize_tasks_fractionalS tasks q).2).optimized_tasks = _
        rw [optimize_tasks_fractionalS_degenerate _ _ hdeg]
        rfl
      · show (((List.map Prod.snd []) ++
            ((optimize_tasks_fractionalS tasks q).2).skipped_tasks)).Perm _
        rw [optimize_tasks_fractionalS_degenerate _ _ hdeg]
        simp
    · have hds : ∀ t ∈ sortedVE tasks, 0 < t.duration := by
        intro t ht
        rcases mem_sortedVE ht with ⟨u, hu, rfl⟩
        rw [annotateVE_duration]
        exact hd u hu
      obtain ⟨s, hs1, hs2, hs3, hs4, _⟩ := fracLoop_partition (sortedVE tasks) q hds
      refine ⟨s, ?_, ?_, hs3, hs4⟩
      · show ((optimize_tasks_fractionalS tasks q).2).optimized_tasks = _
        rw [optimize_tasks_fractionalS_main tasks q hdeg]
        exact hs1
      · show ((s.map Prod.snd) ++
            ((optimize_tasks_fractionalS tasks q).2).skipped_tasks).Perm _
        rw [optimize_tasks_fractionalS_main tasks q hdeg]
        exact hs2.trans (sortedVE_perm tasks)

/-- C4 witness: both partition statements at a concrete input. -/
theorem C4_partition_witness :
    (∀ t ∈ [mkTask "a" 20 1 "work", mkTask "b" 30 5 "health"], 0 < t.duration) ∧
    (∃ r, optimize_tasks [mkTask "a" 20 1 "work", mkTask "b" 30 5 "health"] 40 = some r ∧
      (r.optimized_tasks ++ r.skipped_tasks).Perm
        (optimize_tasksS [mkTask "a" 20 1 "work", mkTask "b" 30 5 "health"] 40).1) :=
  ⟨by with_unfolding_all decide,
    (C4_partition [mkTask "a" 20 1 "work", mkTask "b" 30 5 "health"] 40
      (by with_unfolding_all decide)).1⟩

/-! Greedy value lemmas for fractional dominance -/

/-- Value of the partial copy. -/
theorem valD_mkPartialTask (t : PyTask) (r : ℚ) :
    valD (mkPartialTask t r) = valD t * (r / t.duration) := rfl

/-- Every category weight is positive. -/
theorem category_weights_pos (c : String) : 0 < category_weights c := by
  unfold category_weights
  split_ifs <;> norm_num

/-- The greedy loop accumulates a non-negative value when all task
values are non-negative. -/
theorem fracLoop_value_nonneg (l : List PyTask) :
    ∀ r : ℚ, (∀ u ∈ l, 0 ≤ valD u) → 0 ≤ (fracLoop l r).total_value := by
  induction l with
  | nil =>
    intro r _
    rw [fracLoop_nil]
  | cons t rest ih =>
    intro r hv
    have hvt := hv t (List.mem_cons_self t rest)
    have hvr := fun u hu => hv u (List.mem_cons_of_mem _ hu)
    by_cases h1 : t.duration ≤ r
    · rw [fracLoop_whole h1]
      have := ih (r - t.duration) hvr
      show 0 ≤ valD t + (fracLoop rest (r - t.duration)).total_value
      linarith
    · by_cases h2 : 0 < r
      · rw [fracLoop_split h1 h2]
        have := ih 0 hvr
        show 0 ≤ valD (mkPartialTask t r) + (fracLoop rest 0).total_value
        rw [valD_mkPartialTask]
        have hdt : 0 < t.duration := lt_trans h2 (lt_of_not_le h1)
        have : 0 ≤ valD t * (r / t.duration) :=
          mul_nonneg hvt (div_nonneg (le_of_lt h2) (le_of_lt hdt))
        linarith [ih 0 hvr]
      · rw [fracLoop_skip h1 h2]
        exact ih r hvr

/-- Total bound: against a density bound e, the greedy value within
capacity r is at most e times r. -/
theorem fracLoop_value_le (l : List PyTask) :
    ∀ r e : ℚ, 0 ≤ r → 0 ≤ e →
      (∀ u ∈ l, 0 < u.duration ∧ 0 ≤ valD u ∧ valD u ≤ e * u.duration) →
      (fracLoop l r).total_value ≤ e * r := by
  induction l with
  | nil =>
    intro r e hr he _
    rw [fracLoop_nil]
    show (0 : ℚ) ≤ e * r
    exact mul_nonneg he hr
  | cons t rest ih =>
    intro r e hr he hh
    obtain ⟨hdt, hvt, hbt⟩ := hh t (List.mem_cons_self t rest)
    have hhr := fun u hu => hh u (List.mem_cons_of_mem _ hu)
    by_cases h1 : t.duration ≤ r
    · rw [fracLoop_whole h1]
      have := ih (r - t.duration) e (by linarith) he hhr
      show valD t + (fracLoop rest (r - t.duration)).total_value ≤ e * r
      have : e * (r - t.duration) = e * r - e * t.duration := by ring
      nlinarith [ih (r - t.duration) e (by linarith : (0:ℚ) ≤ r - t.duration) he hhr]
    · by_cases h2 : 0 < r
      · rw [fracLoop_split h1 h2]
        show valD (mkPartialTask t r) + (fracLoop rest 0).total_value ≤ e * r
        rw [valD_mkPartialTask]
        have hz := ih 0 e (le_refl 0) he hhr
        have hd0 : t.duration ≠ 0 := ne_of_gt hdt
        have hkey : valD t * (r / t.duration) ≤ e * r := by
          calc valD t * (r / t.duration)
              ≤ (e * t.duration) * (r / t.duration) := by
                apply mul_le_mul_of_nonneg_right hbt
                exact div_nonneg (le_of_lt h2) (le_of_lt hdt)
            _ = e * (t.duration * (r / t.duration)) := by ring
            _ = e * r := by rw [mul_div_cancel₀ r hd0]
        simp only [mul_zero] at hz
        linarith
      · rw [fracLoop_skip h1 h2]
        exact ih r e hr he hhr

/-- Lipschitz bound: shrinking the capacity costs at most the density
bound times the difference. -/
theorem fracLoop_value_lipschitz (l : List PyTask) :
    ∀ r r' e : ℚ, 0 ≤ r' → r' ≤ r → 0 ≤ e →
      (∀ u ∈ l, 0 < u.duration ∧ 0 ≤ valD u ∧ valD u ≤ e * u.duration) →
      (fracLoop l r).total_value ≤ (fracLoop l r').total_value + e * (r - r') := by
  induction l with
  | nil =>
    intro r r' e hr' hrr he _
    rw [fracLoop_nil, fracLoop_nil]
    show (0 : ℚ) ≤ 0 + e * (r - r')
    have := mul_nonneg he (by linarith : (0:ℚ) ≤ r - r')
    linarith
  | cons t rest ih =>
    intro r r' e hr' hrr he hh
    obtain ⟨hdt, hvt, hbt⟩ := hh t (List.mem_cons_self t rest)
    have hhr := fun u hu => hh u (List.mem_cons_of_mem _ hu)
    have hd0 : t.duration ≠ 0 := ne_of_gt hdt
    by_cases h1 : t.duration ≤ r'
    · have h1r : t.duration ≤ r := le_trans h1 hrr
      rw [fracLoop_whole h1, fracLoop_whole h1r]
      show valD t + (fracLoop rest (r - t.duration)).total_value ≤
        valD t + (fracLoop rest (r' - t.duration)).total_value + e * (r - r')
      have := ih (r - t.duration) (r' - t.duration) e (by linarith) (by linarith) he hhr
      have heq : e * (r - t.duration - (r' - t.duration)) = e * (r - r') := by ring
      linarith [heq ▸ this]
    · by_cases h2 : 0 < r'
      · have hr'd : r' < t.duration := lt_of_not_le h1
        by_cases h3 : t.duration ≤ r
        · rw [fracLoop_whole h3, fracLoop_split h1 h2]
          show valD t + (fracLoop rest (r - t.duration)).total_value ≤
            valD (mkPartialTask t r') + (fracLoop rest 0).total_value + e * (r - r')
          rw [valD_mkPartialTask]
          have hlip := ih (r - t.duration) 0 e (le_refl 0) (by linarith) he hhr
          have hfrac : 0 ≤ 1 - r' / t.duration := by
            have : r' / t.duration ≤ 1 := (div_le_one hdt).2 (le_of_lt hr'd)
            linarith
          have hkey : valD t * (1 - r' / t.duration) ≤ e * (t.duration - r') := by
            calc valD t * (1 - r' / t.duration)
                ≤ (e * t.duration) * (1 - r' / t.duration) :=
                  mul_le_mul_of_nonneg_right hbt hfrac
              _ = e * t.duration - e * (t.duration * (r' / t.duration)) := by ring
              _ = e * (t.duration - r') := by rw [mul_div_cancel₀ r' hd0]; ring
          have hexp : valD t - valD t * (r' / t.duration) ≤
              e * t.duration - e * r' := by nlinarith [hkey]
          have hsub : e * (r - t.duration - 0) = e * r - e * t.duration := by ring
          nlinarith [hlip]
        · have hrd : r < t.duration := lt_of_not_le h3
          have h2r : 0 < r := lt_of_lt_of_le h2 hrr
          rw [fracLoop_split h3 h2r, fracLoop_split h1 h2]
          show valD (mkPartialTask t r) + (fracLoop rest 0).total_value ≤
            valD (mkPartialTask t r') + (fracLoop rest 0).total_value + e * (r - r')
          rw [valD_mkPartialTask, valD_mkPartialTask]
          have hkey : valD t * (r / t.duration) - valD t * (r' / t.duration) ≤
              e * (r - r') := by
            have hstep : valD t * ((r - r') / t.duration) ≤
                (e * t.duration) * ((r - r') / t.duration) := by
              apply mul_le_mul_of_nonneg_right hbt
              exact div_nonneg (by linarith) (le_of_lt hdt)
            have hc : (e * t.duration) * ((r - r') / t.duration) = e * (r - r') := by
              rw [show (e * t.duration) * ((r - r') / t.duration) =
                e * (t.duration * ((r - r') / t.duration)) by ring,
                mul_div_cancel₀ _ hd0]
            have hsplit : valD t * (r / t.duration) - valD t * (r' / t.duration) =
                valD t * ((r - r') / t.duration) := by ring
            linarith [hsplit ▸ (hc ▸ hstep)]
          linarith
      · have hr0 : r' = 0 := le_antisymm (le_of_not_lt h2) hr'
        subst hr0
        have hskip : ¬ t.duration ≤ (0 : ℚ) := not_le_of_lt hdt
        rw [fracLoop_skip hskip (lt_irrefl 0)]
        show (fracLoop (t :: rest) r).total_value ≤
          (fracLoop rest 0).total_value + e * (r - 0)
        have hub := fracLoop_value_le (t :: rest) r e (by linarith) he hh
        have hnn := fracLoop_value_nonneg rest 0 (fun u hu => (hhr u hu).2.1)
        have : e * (r - 0) = e * r := by ring
        linarith

/-- Value of a selection is bounded by the density bound times its
duration. -/
theorem sub_value_le (sub : List PyTask) (e : ℚ)
    (h : ∀ u ∈ sub, 0 < u.duration ∧ 0 ≤ valD u ∧ valD u ≤ e * u.duration) :
    (sub.map valD).sum ≤ e * (sub.map PyTask.duration).sum := by
  induction sub with
  | nil => simp
  | cons t rest ih =>
    obtain ⟨hdt, hvt, hbt⟩ := h t (List.mem_cons_self t rest)
    have := ih fun u hu => h u (List.mem_cons_of_mem _ hu)
    simp only [List.map_cons, List.sum_cons]
    nlinarith

/-- Core dominance lemma: on a density-sorted list, the greedy loop value
dominates the value of every feasible whole-task selection. -/
theorem greedy_ge_subset (l : List PyTask) :
    ∀ (r : ℚ) (sub : List PyTask),
      l.Pairwise (fun a b => effD b ≤ effD a) →
      (∀ u ∈ l, 0 < u.duration ∧ 0 ≤ valD u ∧ valD u = effD u * u.duration) →
      sub.Sublist l → (sub.map PyTask.duration).sum ≤ r →
      (sub.map valD).sum ≤ (fracLoop l r).total_value := by
  induction l with
  | nil =>
    intro r sub _ _ hsub hcap
    rw [List.sublist_nil.1 hsub, fracLoop_nil]
    show (0 : ℚ) ≤ 0
    exact le_refl 0
  | cons t rest ih =>
    intro r sub hsort hh hsub hcap
    obtain ⟨hdt, hvt, hvet⟩ := hh t (List.mem_cons_self t rest)
    have hhr := fun u hu => hh u (List.mem_cons_of_mem _ hu)
    have hle : ∀ u ∈ rest, effD u ≤ effD t :=
      fun u hu => (List.pairwise_cons.1 hsort).1 u hu
    have hsortr : rest.Pairwise (fun a b => effD b ≤ effD a) :=
      (List.pairwise_cons.1 hsort).2
    have hd0 : t.duration ≠ 0 := ne_of_gt hdt
    have het : 0 ≤ effD t := by
      have h := hvet ▸ hvt
      by_contra hneg
      push_neg at hneg
      nlinarith
    have hbnd : ∀ u ∈ rest, 0 < u.duration ∧ 0 ≤ valD u ∧
        valD u ≤ effD t * u.duration := by
      intro u hu
      obtain ⟨h1, h2, h3⟩ := hhr u hu
      refine ⟨h1, h2, ?_⟩
      rw [h3]
      exact mul_le_mul_of_nonneg_right (hle u hu) (le_of_lt h1)
    have hposdur : ∀ s : List PyTask, (∀ u ∈ s, 0 < u.duration) →
        0 ≤ (s.map PyTask.duration).sum := by
      intro s hs
      apply List.sum_nonneg
      intro x hx
      rcases List.mem_map.1 hx with ⟨u, hu, rfl⟩
      exact le_of_lt (hs u hu)
    rcases List.sublist_cons_iff.1 hsub with hsubr | ⟨s', rfl, hs'⟩
    · -- t not selected
      by_cases h1 : t.duration ≤ r
      · rw [fracLoop_whole h1]
        show (sub.map valD).sum ≤ valD t + (fracLoop rest (r - t.duration)).total_value
        have hlip := fracLoop_value_lipschitz rest r (r - t.duration) (effD t)
          (by linarith) (by linarith) het hbnd
        have hih := ih r sub hsortr hhr hsubr hcap
        have heq : effD t * (r - (r - t.duration)) = effD t * t.duration := by ring
        rw [heq, ← hvet] at hlip
        linarith
      · by_cases h2 : 0 < r
        · rw [fracLoop_split h1 h2]
          show (sub.map valD).sum ≤
            valD (mkPartialTask t r) + (fracLoop rest 0).total_value
          rw [valD_mkPartialTask]
          have hsb : ∀ u ∈ sub, 0 < u.duration ∧ 0 ≤ valD u ∧
              valD u ≤ effD t * u.duration :=
            fun u hu => hbnd u (List.Sublist.mem hu hsubr)
          have h1s := sub_value_le sub (effD t) hsb
          have h2s : effD t * (sub.map PyTask.duration).sum ≤ effD t * r :=
            mul_le_mul_of_nonneg_left hcap het
          have h3s : valD t * (r / t.duration) = effD t * r := by
            rw [hvet, show effD t * t.duration * (r / t.duration) =
              effD t * (t.duration * (r / t.duration)) by ring,
              mul_div_cancel₀ _ hd0]
          have hnn := fracLoop_value_nonneg rest 0 fun u hu => (hhr u hu).2.1
          rw [h3s]
          linarith
        · rw [fracLoop_skip h1 h2]
          exact ih r sub hsortr hhr hsubr hcap
    · -- t selected first
      have hpd : ∀ u ∈ s', 0 < u.duration :=
        fun u hu => (hhr u (List.Sublist.mem hu hs')).1
      have hs'dur := hposdur s' hpd
      simp only [List.map_cons, List.sum_cons] at hcap ⊢
      have h1 : t.duration ≤ r := by linarith
      rw [fracLoop_whole h1]
      show valD t + (s'.map valD).sum ≤
        valD t + (fracLoop rest (r - t.duration)).total_value
      have hih := ih (r - t.duration) s' hsortr hhr hs' (by linarith)
      linarith

/-- The efficiency key attached by the greedy solver. -/
theorem effD_annotateVE (t : PyTask) :
    effD (annotateVE t) =
      if 0 < t.duration then taskValue t / t.duration else 0 := rfl

/-- The sorted list is pairwise descending in efficiency. -/
theorem sortedVE_sorted (tasks : List PyTask) :
    (sortedVE tasks).Pairwise fun a b => effD b ≤ effD a :=
  List.sorted_insertionSort effGe (tasks.map annotateVE)

/-- Members of the sorted list satisfy the density hypotheses of the
dominance lemma, for valid inputs. -/
theorem sortedVE_density (tasks : List PyTask)
    (hd : ∀ t ∈ tasks, 0 < t.duration ∧ 0 ≤ t.priority) :
    ∀ u ∈ sortedVE tasks,
      0 < u.duration ∧ 0 ≤ valD u ∧ valD u = effD u * u.duration := by
  intro u hu
  rcases mem_sortedVE hu with ⟨w, hw, rfl⟩
  obtain ⟨hdw, hpw⟩ := hd w hw
  have hval : 0 ≤ taskValue w :=
    mul_nonneg hpw (le_of_lt (category_weights_pos w.category))
  refine ⟨by rw [annotateVE_duration]; exact hdw, by rw [valD_annotateVE]; exact hval, ?_⟩
  rw [valD_annotateVE, effD_annotateVE, annotateVE_duration, if_pos hdw,
    div_mul_cancel₀ _ (ne_of_gt hdw)]

/-- C7: for valid inputs (integer positive durations, non-negative
priorities) the greedy solver's total_value is at least the exact
solver's total_value. -/
theorem C7_greedy_dominates (tasks : List PyTask) (q : ℚ)
    (hd : ∀ t ∈ tasks, natQ t.duration ∧ 0 < t.duration ∧ 0 ≤ t.priority) :
    ∃ r, optimize_tasks tasks q = some r ∧
      r.total_value ≤ (optimize_tasks_fractional tasks q).total_value := by
  by_cases hdeg : tasks = [] ∨ q ≤ 0
  · refine ⟨⟨[], tasks, 0, 0, "No tasks to optimize or no available time."⟩, ?_, ?_⟩
    · show (optimize_tasksS tasks q).2 = _
      rw [optimize_tasksS_degenerate _ _ hdeg]
    · show (0 : ℚ) ≤ ((optimize_tasks_fractionalS tasks q).2).total_value
      rw [optimize_tasks_fractionalS_degenerate _ _ hdeg]
  · have hq : 0 < q := by
      rcases not_or.1 hdeg with ⟨_, h2⟩
      exact lt_of_not_le h2
    have h2 : ∀ t ∈ tasks, 0 ≤ pyInt t.duration :=
      fun t ht => (natQ_pyInt (hd t ht).1).1
    refine ⟨⟨exactOpt tasks q, exactSkip tasks q,
        ((exactOpt tasks q).map PyTask.duration).sum,
        round2 (((exactOpt tasks q).map valD).sum),
        generate_explanation (exactOpt tasks q) (exactSkip tasks q)
          ((exactOpt tasks q).map PyTask.duration).sum q category_weights⟩, ?_, ?_⟩
    · show (optimize_tasksS tasks q).2 = _
      rw [optimize_tasksS_main tasks q hdeg h2]
    · show round2 (((exactOpt tasks q).map valD).sum) ≤
        ((optimize_tasks_fractionalS tasks q).2).total_value
      rw [optimize_tasks_fractionalS_main tasks q hdeg]
      show round2 (((exactOpt tasks q).map valD).sum) ≤
        round2 (fracLoop (sortedVE tasks) q).total_value
      apply round2_mono
      obtain ⟨hsubT, hopt⟩ := exactOpt_eq_annotate_sub tasks q
      have hvaleq : ((exactOpt tasks q).map valD).sum =
          ((((exactSel tasks q).filterMap fun j => tasks[j]?).map annotateVE).map valD).sum := by
        rw [hopt, List.map_map, List.map_map]
        rfl
      have hdureq : ((((exactSel tasks q).filterMap fun j => tasks[j]?).map annotateVE).map
          PyTask.duration).sum = ((exactOpt tasks q).map PyTask.duration).sum := by
        rw [hopt, List.map_map, List.map_map]
        rfl
      have htime : ((exactOpt tasks q).map PyTask.duration).sum ≤ q :=
        exactOpt_time_le tasks q (fun t ht => (hd t ht).1) hq
      have hsubVE : ((((exactSel tasks q).filterMap fun j => tasks[j]?)).map annotateVE).Sublist
          (tasks.map annotateVE) := List.Sublist.map annotateVE hsubT
      have hsp : ((((exactSel tasks q).filterMap fun j => tasks[j]?)).map annotateVE).Subperm
          (sortedVE tasks) :=
        (List.Sublist.subperm hsubVE).trans (sortedVE_perm tasks).symm.subperm
      rcases hsp with ⟨s', hs'p, hs's⟩
      have hs'val : (s'.map valD).sum =
          ((((exactSel tasks q).filterMap fun j => tasks[j]?).map annotateVE).map valD).sum :=
        (hs'p.map valD).sum_eq
      have hs'dur : (s'.map PyTask.duration).sum =
          ((((exactSel tasks q).filterMap fun j => tasks[j]?).map annotateVE).map
            PyTask.duration).sum :=
        (hs'p.map PyTask.duration).sum_eq
      have hmain := greedy_ge_subset (sortedVE tasks) q s' (sortedVE_sorted tasks)
        (sortedVE_density tasks fun t ht => ⟨(hd t ht).2.1, (hd t ht).2.2⟩) hs's
        (by rw [hs'dur, hdureq]; exact htime)
      rw [hvaleq, ← hs'val]
      exact hmain

/-- C7 witness: dominance at a concrete input on which the greedy value
is strictly larger (the exact solver must leave capacity unused). -/
theorem C7_greedy_dominates_witness :
    (∀ t ∈ [mkTask "a" 60 5 "work"], natQ t.duration ∧ 0 < t.duration ∧ 0 ≤ t.priority) ∧
    (∃ r, optimize_tasks [mkTask "a" 60 5 "work"] 30 = some r ∧
      r.total_value ≤ (optimize_tasks_fractional [mkTask "a" 60 5 "work"] 30).total_value) :=
  ⟨by with_unfolding_all decide,
    C7_greedy_dominates [mkTask "a" 60 5 "work"] 30 (by with_unfolding_all decide)⟩
